import Mathlib

/-!
# Verification of the pdf_reader Document Knowledge Engine and its frontend glue

Shallow embedding of the pdf_reader repository (React frontend in
`src/frontend` and `src/unnamed/part_000..002`) together with
spec-modelled definitions for the backend Document Knowledge Engine,
whose implementation is not part of the repository snapshot (only its
HTTP callers in `src/frontend/src/services/api.js` are present).

Conventions: JS strings are embedded as `List Char`; JS numbers used as
page counters are embedded as `Int`; fallible calls return `Option`.
-/

namespace PdfReader

/-! ## PDFViewer (src/frontend/src/components/PDFViewer.jsx)

The toolbar's previous-page button runs `onPageChange(Math.max(1, pageNumber - 1))`
and the next-page button runs `onPageChange(Math.min(numPages || 1, pageNumber + 1))`.
-/

/-- `Math.max(1, pageNumber - 1)` — the previous-page toolbar action of
`PDFViewer.jsx` line 54. -/
def prevPage (pageNumber : Int) : Int := max 1 (pageNumber - 1)

/-- `Math.min(numPages || 1, pageNumber + 1)` — the next-page toolbar action of
`PDFViewer.jsx` line 67; `numPages` is the loaded document's page count (the
`|| 1` fallback applies only before the document has loaded). -/
def nextPage (numPages pageNumber : Int) : Int := min numPages (pageNumber + 1)

/-- A toolbar click is either the previous-page or the next-page button. -/
inductive ToolbarClick
  | prev
  | next
deriving DecidableEq, Repr

/-- Run one toolbar click against the current page of a document with
`numPages` pages. -/
def applyClick (numPages : Int) (pageNumber : Int) : ToolbarClick → Int
  | ToolbarClick.prev => prevPage pageNumber
  | ToolbarClick.next => nextPage numPages pageNumber

/-- Run a sequence of toolbar clicks from a starting page. -/
def runClicks (numPages : Int) (pageNumber : Int) : List ToolbarClick → Int
  | [] => pageNumber
  | c :: cs => runClicks numPages (applyClick numPages pageNumber c) cs

/-! ## App state and handleDeleteDocument (src/unnamed/part_002)

The relevant local reading state of the `App` component, and the deletion
handler of lines 188–207: after a `window.confirm` and a successful
`deleteDocument(id)` API call, the four reading-state fields are cleared
iff the deleted id is the currently open one.
-/

/-- The local reading state of `App` that `handleDeleteDocument` touches:
`docId`, `pdfUrl`, `notes`, `chatHistory`. Notes and chat messages are kept
abstract: deletion only clears the lists. -/
structure AppState where
  docId : Option (List Char)
  pdfUrl : Option (List Char)
  notes : List (List Char)
  chatHistory : List (List Char)
deriving DecidableEq, Repr

/-- `handleDeleteDocument(id)` from `src/unnamed/part_002` lines 188–207.
`confirmed` is the result of the `window.confirm` dialog and `apiOk` whether
the `deleteDocument(id)` request succeeded (on failure the handler alerts and
leaves the state alone). When the deleted id is the open one, `docId`,
`pdfUrl`, `notes` and `chatHistory` are all cleared; otherwise they are left
unchanged. -/
def handleDeleteDocument (confirmed apiOk : Bool) (st : AppState)
    (id : List Char) : AppState :=
  if !confirmed then st
  else if !apiOk then st
  else if st.docId = some id then
    { st with docId := none, pdfUrl := none, notes := [], chatHistory := [] }
  else st

/-! ## String helpers for the JS code

`List Char` stands for a JS string.  `containsSub` is JS
`String.prototype.includes`, `jsSpace` the `\s` character class restricted to
the whitespace that occurs in the data at hand, and digits are `\d`.
-/

/-- JS `hay.includes(needle)`: `needle` occurs contiguously in `hay`. -/
def containsSub (needle : List Char) : List Char → Bool
  | [] => needle.isEmpty
  | c :: t => needle.isPrefixOf (c :: t) || containsSub needle t

/-- The `\s` character class of JS regexes (space, tab, newline, carriage
return, vertical tab, form feed). -/
def jsSpace (c : Char) : Bool :=
  c = ' ' || c = '\t' || c = '\n' || c = '\r' || c = '\x0b' || c = '\x0c'

/-- `kw` (given in lower case) matches the start of `s` case-insensitively,
as JS regex alternatives under the `i` flag do. -/
def kwHeads (kw s : List Char) : Bool :=
  kw.isPrefixOf (s.map Char.toLower)

/-- Fuel-indexed worker for `numTail` (structural recursion on the fuel so
the kernel can evaluate it). -/
def numTailF : Nat → List Char → Nat
  | 0, _ => 0
  | _ + 1, [] => 0
  | fuel + 1, c :: cs =>
    if c = '.' then
      let d := (cs.takeWhile Char.isDigit).length
      if d = 0 then 0 else 1 + d + numTailF fuel (cs.drop d)
    else 0

/-- Length consumed by the greedy `(\.\d+)*` tail of the reference regex of
`renderContentWithRefs` (AgentPanel.jsx line 199), starting at the head of the
list. Every recursive step drops at least two characters, so `length + 1`
fuel never runs out. -/
def numTail (l : List Char) : Nat :=
  numTailF (l.length + 1) l

/-- One alternative of the JS reference regexes, anchored at the head of `s`:
keyword `kw` (case-insensitive), then `\s*`, then `\d+`, and when `allowDots`
is set the greedy `(\.\d+)*` tail. Returns the total matched length together
with the digit group (`match[2]` without the dotted tail). -/
def matchAltAt (kw : List Char) (allowDots : Bool) (s : List Char) :
    Option (Nat × List Char) :=
  if kwHeads kw s then
    let rest := s.drop kw.length
    let sp := (rest.takeWhile jsSpace).length
    let rest2 := rest.dropWhile jsSpace
    let ds := rest2.takeWhile Char.isDigit
    if ds.isEmpty then none
    else
      some (kw.length + sp + ds.length +
        (if allowDots then numTail (rest2.drop ds.length) else 0), ds)
  else none

/-- Try the regex alternatives in order at the head of `s`; on the first
complete alternative return the (lower-case) keyword, the total matched
length and the digit group. This is JS alternation semantics: alternatives
are attempted left to right at a fixed position. -/
def refMatchAt (kws : List (List Char)) (allowDots : Bool) (s : List Char) :
    Option (List Char × Nat × List Char) :=
  match kws with
  | [] => none
  | kw :: rest =>
    match matchAltAt kw allowDots s with
    | some (n, ds) => some (kw, n, ds)
    | none => refMatchAt rest allowDots s

/-- The alternatives of `/(Fig\.|Figure|Table)\s*(\d+)/i` in
`handleReferenceClick` (AgentPanel.jsx line 167), lower-cased. -/
def figKeywords : List (List Char) :=
  [['f', 'i', 'g', '.'], ['f', 'i', 'g', 'u', 'r', 'e'],
   ['t', 'a', 'b', 'l', 'e']]

/-- The alternatives of `/(Fig\.|Figure|Table|Section|Eq\.)\s*(\d+(\.\d+)*)/gi`
in `renderContentWithRefs` (AgentPanel.jsx line 199), lower-cased. -/
def refKeywords : List (List Char) :=
  [['f', 'i', 'g', '.'], ['f', 'i', 'g', 'u', 'r', 'e'],
   ['t', 'a', 'b', 'l', 'e'], ['s', 'e', 'c', 't', 'i', 'o', 'n'],
   ['e', 'q', '.']]

/-- `refText.match(/(Fig\.|Figure|Table)\s*(\d+)/i)` — the leftmost match,
returning the lower-cased keyword alternative (`match[1].toLowerCase()`) and
the digit group (`match[2]`). -/
def jsFigMatch : List Char → Option (List Char × List Char)
  | [] => none
  | c :: cs =>
    match refMatchAt figKeywords false (c :: cs) with
    | some (kw, _, ds) => some (kw, ds)
    | none => jsFigMatch cs

/-- Leftmost match of the `renderContentWithRefs` regex in `s`: the text
before the match, the matched text and the rest. -/
def findRef : List Char → Option (List Char × List Char × List Char)
  | [] => none
  | c :: cs =>
    match refMatchAt refKeywords true (c :: cs) with
    | some (_, n, _) => some ([], (c :: cs).take n, (c :: cs).drop n)
    | none =>
      match findRef cs with
      | some (p, m, r) => some (c :: p, m, r)
      | none => none

/-- An output fragment of `renderContentWithRefs`: plain text, or a clickable
reference span. -/
inductive Frag
  | text (s : List Char)
  | span (s : List Char)
deriving DecidableEq, Repr

/-- The `refRegex.exec` loop of `renderContentWithRefs` (AgentPanel.jsx lines
204–236): repeatedly emit the text before the leftmost match and the match as
a span, then the trailing text. The loop always terminates because every
match is nonempty; the fuel argument only bounds the recursion and is never
exhausted when it starts at `length + 1`. -/
def scanRefs : Nat → List Char → List Frag
  | 0, s => [Frag.text s]
  | fuel + 1, s =>
    match findRef s with
    | none => [Frag.text s]
    | some (p, m, r) => Frag.text p :: Frag.span m :: scanRefs fuel r

/-- `renderContentWithRefs(content)` (AgentPanel.jsx lines 195–239) as the
list of fragments it renders. `if (!content) return null` renders nothing for
the empty string; otherwise the match loop splits the content into text and
span fragments. -/
def renderContentWithRefs (content : List Char) : List Frag :=
  if content.isEmpty then []
  else scanRefs (content.length + 1) content

/-- Concatenation of the text carried by a fragment list, in order. -/
def fragsText : List Frag → List Char
  | [] => []
  | Frag.text s :: t => s ++ fragsText t
  | Frag.span s :: t => s ++ fragsText t

/-! ### The reference-pattern language, declaratively

Used to state what a "maximal substring matching the reference pattern" is,
independently of the scanning order of `renderContentWithRefs`.
-/

/-- Fuel-indexed worker for `isDotGroups` (structural recursion on the fuel
so the kernel can evaluate it). -/
def isDotGroupsF : Nat → List Char → Bool
  | 0, _ => false
  | _ + 1, [] => true
  | fuel + 1, c :: cs =>
    if c = '.' then
      let ds := cs.takeWhile Char.isDigit
      if ds.isEmpty then false else isDotGroupsF fuel (cs.drop ds.length)
    else false

/-- `t` is a concatenation of groups `\.\d+` (each a dot followed by at least
one digit), possibly empty. Every recursive step drops at least two
characters, so `length + 1` fuel never runs out. -/
def isDotGroups (l : List Char) : Bool :=
  isDotGroupsF (l.length + 1) l

/-- `t` is exactly one keyword alternative `kw` (case-insensitively) followed
by `\s*`, `\d+` and a `(\.\d+)*` tail: full-string membership in one
alternative of the `renderContentWithRefs` regex. -/
def isRefLangAlt (kw t : List Char) : Bool :=
  kwHeads kw t &&
    (let rest2 := (t.drop kw.length).dropWhile jsSpace
     let ds := rest2.takeWhile Char.isDigit
     !ds.isEmpty && isDotGroups (rest2.drop ds.length))

/-- `t` is exactly a reference-pattern match: some alternative of
`/(Fig\.|Figure|Table|Section|Eq\.)\s*(\d+(\.\d+)*)/i` accepts all of `t`. -/
def isRefLang (t : List Char) : Bool :=
  refKeywords.any (fun kw => isRefLangAlt kw t)

/-- The substring of `s` of length `n` starting at index `i` is a
reference-pattern match. -/
def MatchSubAt (s : List Char) (i n : Nat) : Prop :=
  i + n ≤ s.length ∧ isRefLang ((s.drop i).take n) = true

instance (s : List Char) (i n : Nat) : Decidable (MatchSubAt s i n) :=
  inferInstanceAs (Decidable (_ ∧ _))

/-- The substring of `s` at `(i, n)` is a maximal reference-pattern match: it
matches, and no strictly larger matching substring of `s` contains it. -/
def MaximalMatchAt (s : List Char) (i n : Nat) : Prop :=
  MatchSubAt s i n ∧
    ∀ i' n', MatchSubAt s i' n' → i' ≤ i → i + n ≤ i' + n' → i' = i ∧ n' = n

instance (s : List Char) (i n : Nat) : Decidable (MaximalMatchAt s i n) := by
  have hd : Decidable (MatchSubAt s i n ∧ ∀ i' ∈ List.range (i + 1),
      ∀ n' ∈ List.range (s.length + 1),
      MatchSubAt s i' n' → i' ≤ i → i + n ≤ i' + n' → i' = i ∧ n' = n) :=
    inferInstance
  refine @decidable_of_iff _ _ ?_ hd
  unfold MaximalMatchAt
  constructor
  · rintro ⟨h1, h2⟩
    refine ⟨h1, fun i' n' hm hi hn => ?_⟩
    have hb : n' ∈ List.range (s.length + 1) := by
      rw [List.mem_range]
      have := hm.1
      omega
    exact h2 i' (by rw [List.mem_range]; omega) n' hb hm hi hn
  · rintro ⟨h1, h2⟩
    exact ⟨h1, fun i' _ n' _ hm hi hn => h2 i' n' hm hi hn⟩

/-! ## Figures and handleReferenceClick (AgentPanel.jsx lines 163–193) -/

/-- A Figure catalog entry as the frontend sees it: its caption text and the
page it sits on. -/
structure Figure where
  caption : List Char
  page : Nat
deriving DecidableEq, Repr

/-- The predicate of `figures.find(...)` in `handleReferenceClick`: the
lower-cased caption contains the substring `"<type> <num>"` or the substring
`"fig. <num>"`, where `tname` is the lower-cased type name (`"figure"` or
`"table"`). -/
def figCandidate (tname num : List Char) (f : Figure) : Bool :=
  let cap := f.caption.map Char.toLower
  containsSub (tname ++ ' ' :: num) cap ||
    containsSub (['f', 'i', 'g', '.', ' '] ++ num) cap

/-- `figMatch[1].toLowerCase().startsWith('t') ? 'Table' : 'Figure'`, already
lower-cased as the search strings use it. -/
def refTypeName (kw : List Char) : List Char :=
  if kw.head? = some 't' then ['t', 'a', 'b', 'l', 'e']
  else ['f', 'i', 'g', 'u', 'r', 'e']

/-- What `handleReferenceClick` does before any backend call: navigate to a
page, or fall through to the backend `resolveReference` search. -/
inductive RefAction
  | navigate (page : Nat)
  | fallback
deriving DecidableEq, Repr

/-- The figure-catalog phase of `handleReferenceClick` (AgentPanel.jsx lines
166–182): when the reference text matches the figure regex and the figures
list is nonempty, find the first Figure whose caption contains one of the two
search substrings and navigate to its page; otherwise fall back to the
backend search. -/
def handleReferenceClickFig (figures : List Figure) (refText : List Char) :
    RefAction :=
  match jsFigMatch refText with
  | some (kw, num) =>
    if figures.length > 0 then
      match figures.find? (fun f => figCandidate (refTypeName kw) num f) with
      | some f => RefAction.navigate f.page
      | none => RefAction.fallback
    else RefAction.fallback
  | none => RefAction.fallback

/-- The full `handleReferenceClick` as a page transformer: the figure phase
may navigate; otherwise the backend result (`resolveReference`, lines
184–193) is consulted, and `onPageChange` runs only when it produced a page —
on `NotFound` (`none`) the current page is returned unchanged. -/
def handleReferenceClickPage (figures : List Figure) (refText : List Char)
    (resolverResult : Option Nat) (currentPage : Nat) : Nat :=
  match handleReferenceClickFig figures refText with
  | RefAction.navigate p => p
  | RefAction.fallback =>
    match resolverResult with
    | some p => p
    | none => currentPage

/-! ### Spec-side normalized caption matching (for claim C4) -/

/-- Modelled from the spec: a caption position carries marker `kw` with
exactly the number `num` — the keyword matches case-insensitively, then after
optional whitespace the full digit run equals `num` (not merely extends it). -/
def markerMatchesAt (kw num s : List Char) : Bool :=
  kwHeads kw s &&
    ((((s.drop kw.length).dropWhile jsSpace).takeWhile Char.isDigit) = num)

/-- Modelled from the spec: "normalized type+number matching (case-insensitive,
tolerant of Fig. vs Figure)" — the caption contains, at some position, the
given type's marker (`table`, or `fig.`/`figure` for figures) followed by
exactly the number `num`. -/
def capCarriesNum (isTable : Bool) (num : List Char) : List Char → Bool
  | [] => false
  | c :: t =>
    (if isTable then markerMatchesAt ['t', 'a', 'b', 'l', 'e'] num (c :: t)
     else markerMatchesAt ['f', 'i', 'g', '.'] num (c :: t) ||
       markerMatchesAt ['f', 'i', 'g', 'u', 'r', 'e'] num (c :: t)) ||
    capCarriesNum isTable num t

/-! ## The Document Knowledge Engine (spec-modelled)

The backend that serves `src/frontend/src/services/api.js` is not part of the
repository snapshot, so the engine of spec §§3–6 is modelled from the spec:
Identity Store, Chunk & Embed Indexer, Retrieval Ranker and ingestion
life-cycle. External collaborators (PDF layout extraction, the embedding
provider) are parameters.
-/

/-- The `embedding_status` of a Document (spec §3): `statusNone → processing →
completed | failed`, with `failed → processing` on retry. -/
inductive EmbeddingStatus
  | statusNone
  | processing
  | completed
  | failed
deriving DecidableEq, Repr

/-- Modelled from the spec: a Chunk (spec §3) — owning document, page, offset
of the chunk within the page, its text, the embedding-model generation that
produced its vector, and the vector itself (rationals stand in for the
provider's floats). -/
structure Chunk where
  docId : Nat
  page : Nat
  offset : Nat
  text : List Char
  modelGen : Nat
  embedding : List ℚ
deriving DecidableEq, Repr

/-- A SectionEntry of the table of contents (spec §3). -/
structure SectionEntry where
  title : List Char
  startPage : Nat
deriving DecidableEq, Repr

/-- Modelled from the spec: a Document record (spec §3) — content-hash id,
page count, per-page text, section list, embedding status, and its owned
Chunks, Figures, notes and chat history. -/
structure Document where
  id : Nat
  pageCount : Nat
  pages : List (List Char)
  sections : List SectionEntry
  embeddingStatus : EmbeddingStatus
  chunks : List Chunk
  figures : List Figure
  notes : List (List Char)
  chatHistory : List (List Char)
deriving DecidableEq, Repr

/-- Modelled from the spec: the Identity Store plus ingestion bookkeeping —
the persisted `doc_id → Document` records and the set (as a list) of doc_ids
with an ingestion task currently running (spec §5). -/
structure EngineState where
  docs : List (Nat × Document)
  running : List Nat
deriving DecidableEq, Repr

/-- The empty engine state. -/
def initState : EngineState := { docs := [], running := [] }

/-- Modelled from the spec: the external collaborators of the engine (spec
§6) — layout extraction of pages, sections and figures from raw bytes, the
chunker producing `(page, offset, text)` seeds from a document's pages, the
embedding provider (which may fail on a text), and the current
embedding-model generation, threaded explicitly per spec §9. -/
structure EngineEnv where
  pagesOf : List Nat → List (List Char)
  sectionsOf : List Nat → List SectionEntry
  figuresOf : List Nat → List Figure
  chunkSeeds : List (List Char) → List (Nat × Nat × List Char)
  provider : List Char → Option (List ℚ)
  modelGen : Nat

/-- Modelled from the spec: `identify(bytes) -> doc_id` (spec §4.1) is a
deterministic content hash of the raw file; a concrete 64-bit rolling hash
stands in for the real digest (collision resistance is not formalized). -/
def identify (bytes : List Nat) : Nat :=
  bytes.foldl (fun h b => (h * 131 + b % 256 + 1) % (2 ^ 64)) 5381

/-- First record with the given doc_id in an association list. -/
def findDoc : List (Nat × Document) → Nat → Option Document
  | [], _ => none
  | p :: t, id => if p.1 = id then some p.2 else findDoc t id

/-- `load(doc_id) -> Document | NotFound` over the identity store. -/
def lookupDoc (st : EngineState) (id : Nat) : Option Document :=
  findDoc st.docs id

/-- Replace the record of `id` (idempotent `save`, spec §4.1: overwrites,
never duplicates). -/
def saveDoc (st : EngineState) (id : Nat) (doc : Document) : EngineState :=
  { st with docs := st.docs.map (fun p => if p.1 = id then (id, doc) else p) }

/-- Modelled from the spec: upload (spec §4.1) — `identify` the bytes; a
re-upload of previously processed bytes short-circuits all downstream
extraction and immediately returns the existing Document with the store
untouched; otherwise layout extraction runs and a fresh record is created
with `embedding_status = statusNone` and no Chunks. -/
def upload (env : EngineEnv) (st : EngineState) (bytes : List Nat) :
    Document × EngineState :=
  let id := identify bytes
  match lookupDoc st id with
  | some doc => (doc, st)
  | none =>
    let pages := env.pagesOf bytes
    let doc : Document :=
      { id := id, pageCount := pages.length, pages := pages,
        sections := env.sectionsOf bytes, embeddingStatus := EmbeddingStatus.statusNone,
        chunks := [], figures := env.figuresOf bytes, notes := [], chatHistory := [] }
    (doc, { st with docs := (id, doc) :: st.docs })

/-- Outcome of an ingestion request (spec §§4.3, 5, 6). -/
inductive IngestOutcome
  | started
  | succeeded
  | failed
  | alreadyCompleted
  | alreadyProcessing
  | notFound
deriving DecidableEq, Repr

/-- Modelled from the spec: batched embedding of the chunk texts — the whole
batch succeeds only if the provider embeds every text; a mid-batch provider
failure fails the batch. -/
def embedAll (provider : List Char → Option (List ℚ)) :
    List (List Char) → Option (List (List ℚ))
  | [] => some []
  | t :: ts =>
    match provider t with
    | none => none
    | some v => (embedAll provider ts).map (fun vs => v :: vs)

/-- Build the Chunk records of a document from its chunk seeds and the
embeddings the provider returned, tagged with the embedding-model
generation. -/
def mkChunks (docId gen : Nat) (seeds : List (Nat × Nat × List Char))
    (vecs : List (List ℚ)) : List Chunk :=
  List.zipWith
    (fun (s : Nat × Nat × List Char) (v : List ℚ) =>
      { docId := docId, page := s.1, offset := s.2.1, text := s.2.2,
        modelGen := gen, embedding := v })
    seeds vecs

/-- The complete chunk set the pipeline produces for a document, when the
provider succeeds on its whole batch; `[]` when it cannot. -/
def expectedChunks (env : EngineEnv) (id : Nat) (pages : List (List Char)) :
    List Chunk :=
  let seeds := env.chunkSeeds pages
  match embedAll env.provider (seeds.map (fun s => s.2.2)) with
  | some vecs => mkChunks id env.modelGen seeds vecs
  | none => []

/-- Modelled from the spec: start of an ingestion task for `id` (spec §§5,
6) — a no-op with signal `alreadyCompleted` when the document is already
`completed` (idempotent `ingest`), a rejection with signal
`alreadyProcessing` when a task for `id` is already running (never a second
task), and otherwise the transition to `processing` with the task
registered. -/
def embedStart (st : EngineState) (id : Nat) : IngestOutcome × EngineState :=
  match lookupDoc st id with
  | none => (IngestOutcome.notFound, st)
  | some doc =>
    if doc.embeddingStatus = EmbeddingStatus.completed then
      (IngestOutcome.alreadyCompleted, st)
    else if doc.embeddingStatus = EmbeddingStatus.processing ∨ id ∈ st.running then
      (IngestOutcome.alreadyProcessing, st)
    else
      (IngestOutcome.started,
        { docs := (saveDoc st id { doc with embeddingStatus := EmbeddingStatus.processing }).docs,
          running := id :: st.running })

/-- Modelled from the spec: completion of the running ingestion task for `id`
(spec §4.3) — chunk the pages, embed the batch; if every embedding succeeds,
commit the full chunk set and mark `completed`; on a mid-batch provider
failure, commit nothing (the document's chunks stay exactly as before) and
mark `failed`. All-or-nothing in a single step: intermediate partial sets
are never stored. -/
def embedFinish (env : EngineEnv) (st : EngineState) (id : Nat) : EngineState :=
  match lookupDoc st id with
  | none => st
  | some doc =>
    if doc.embeddingStatus = EmbeddingStatus.processing then
      let seeds := env.chunkSeeds doc.pages
      let st' :=
        match embedAll env.provider (seeds.map (fun s => s.2.2)) with
        | some vecs =>
          saveDoc st id { doc with
            embeddingStatus := EmbeddingStatus.completed,
            chunks := mkChunks id env.modelGen seeds vecs }
        | none =>
          saveDoc st id { doc with embeddingStatus := EmbeddingStatus.failed }
      { st' with running := st'.running.erase id }
    else st

/-- Modelled from the spec: the atomic view of `ingest(doc_id)` used by the
synchronous claims — start the task and run it to completion at once. -/
def ingest (env : EngineEnv) (st : EngineState) (id : Nat) :
    IngestOutcome × EngineState :=
  match embedStart st id with
  | (IngestOutcome.started, st1) =>
    let ok : Bool :=
      match lookupDoc st id with
      | some doc =>
        (embedAll env.provider
          ((env.chunkSeeds doc.pages).map (fun s => s.2.2))).isSome
      | none => false
    ((if ok then IngestOutcome.succeeded else IngestOutcome.failed),
      embedFinish env st1 id)
  | (o, st1) => (o, st1)

/-- An externally visible engine event: an upload, the start of an ingestion
task, or the delivery of a running task's result (spec §5 allows the start
and the finish to interleave with other events). -/
inductive Event
  | uploadEv (bytes : List Nat)
  | startEv (id : Nat)
  | finishEv (id : Nat)

/-- Apply one event to the engine state. -/
def applyEvent (env : EngineEnv) (st : EngineState) : Event → EngineState
  | Event.uploadEv bytes => (upload env st bytes).2
  | Event.startEv id => (embedStart st id).2
  | Event.finishEv id => embedFinish env st id

/-- Run a sequence of engine events. -/
def runEvents (env : EngineEnv) (st : EngineState) : List Event → EngineState
  | [] => st
  | e :: es => runEvents env (applyEvent env st e) es

/-! ## Retrieval Ranker (spec §4.4, spec-modelled) -/

/-- A RetrievalResult: the ranked chunk and its similarity score (spec §3;
ephemeral, never persisted). -/
structure RetrievalResult where
  chunk : Chunk
  score : ℚ
deriving DecidableEq, Repr

/-- The ranking order of spec §4.4: descending similarity, ties broken by
earlier page number, then by earlier chunk offset. -/
def resultRank (a b : RetrievalResult) : Prop :=
  b.score < a.score ∨
    (a.score = b.score ∧
      (a.chunk.page < b.chunk.page ∨
        (a.chunk.page = b.chunk.page ∧ a.chunk.offset ≤ b.chunk.offset)))

instance : DecidableRel resultRank := by
  intro a b
  unfold resultRank
  infer_instance

instance : IsTotal RetrievalResult resultRank := by
  constructor
  intro a b
  unfold resultRank
  rcases lt_trichotomy a.score b.score with h | h | h
  · exact Or.inr (Or.inl h)
  · rcases Nat.lt_trichotomy a.chunk.page b.chunk.page with hp | hp | hp
    · exact Or.inl (Or.inr ⟨h, Or.inl hp⟩)
    · rcases Nat.le_total a.chunk.offset b.chunk.offset with ho | ho
      · exact Or.inl (Or.inr ⟨h, Or.inr ⟨hp, ho⟩⟩)
      · exact Or.inr (Or.inr ⟨h.symm, Or.inr ⟨hp.symm, ho⟩⟩)
    · exact Or.inr (Or.inr ⟨h.symm, Or.inl hp⟩)
  · exact Or.inl (Or.inl h)

instance : IsTrans RetrievalResult resultRank := by
  constructor
  intro a b c hab hbc
  unfold resultRank at *
  rcases hab with h1 | ⟨e1, h1⟩
  · rcases hbc with h2 | ⟨e2, _⟩
    · exact Or.inl (h2.trans h1)
    · exact Or.inl (e2 ▸ h1)
  · rcases hbc with h2 | ⟨e2, h2⟩
    · exact Or.inl (e1 ▸ h2)
    · refine Or.inr ⟨e1.trans e2, ?_⟩
      rcases h1 with hp1 | ⟨ep1, ho1⟩
      · rcases h2 with hp2 | ⟨ep2, _⟩
        · exact Or.inl (hp1.trans hp2)
        · exact Or.inl (ep2 ▸ hp1)
      · rcases h2 with hp2 | ⟨ep2, ho2⟩
        · exact Or.inl (ep1 ▸ hp2)
        · exact Or.inr ⟨ep1.trans ep2, ho1.trans ho2⟩

/-- Modelled from the spec: `retrieve(query_text, candidate_doc_ids?, top_k)`
(spec §4.4). The query's embedding comparison is the scoring function `sim`
(cosine similarity of the query vector with a chunk's vector, supplied by the
same embedding collaborator); the engine ranks only chunks whose recorded
embedding-model generation equals the query's generation `queryGen` (spec
§§4.4, 9), restricted to `candidateDocIds` when given; results are sorted by
`resultRank` and at most `topK` are returned. A pool with no matches yields
`[]` rather than an error. -/
def retrieve (queryGen : Nat) (sim : Chunk → ℚ) (chunks : List Chunk)
    (candidateDocIds : Option (List Nat)) (topK : Nat) : List RetrievalResult :=
  let pool := chunks.filter (fun c =>
    c.modelGen == queryGen &&
      match candidateDocIds with
      | none => true
      | some ids => ids.contains c.docId)
  let scored := pool.map (fun c => { chunk := c, score := sim c : RetrievalResult })
  (scored.insertionSort resultRank).take topK

/-! ## Engine invariants (spec §§4.3, 5) -/

/-- The per-record invariant of the engine: each record is keyed by its own
id, a record is `processing` exactly while its ingestion task is registered,
and its chunk set is either empty or the complete committed set of the
pipeline (never a partial one). -/
def DocsInv (env : EngineEnv) (st : EngineState) : Prop :=
  ∀ p ∈ st.docs,
    p.2.id = p.1 ∧
    (p.2.embeddingStatus = EmbeddingStatus.processing ↔ p.1 ∈ st.running) ∧
    (p.2.chunks = [] ∨
      (p.2.embeddingStatus = EmbeddingStatus.completed ∧
        p.2.chunks = expectedChunks env p.1 p.2.pages))

/-- The global engine invariant: the running-task list has no duplicates (at
most one ingestion task per doc_id), every running task belongs to a stored
document, and every record satisfies `DocsInv`. -/
def EngineInv (env : EngineEnv) (st : EngineState) : Prop :=
  st.running.Nodup ∧
  (∀ id ∈ st.running, (lookupDoc st id).isSome = true) ∧
  DocsInv env st

/-! ## Reference Resolver (spec §4.6, spec-modelled) -/

/-- First page (1-indexed, starting at `n`) whose text contains `refText`. -/
def firstPageWith (refText : List Char) : List (List Char) → Nat → Option Nat
  | [], _ => none
  | pg :: rest, n =>
    if containsSub refText pg then some n
    else firstPageWith refText rest (n + 1)

/-- Modelled from the spec: `resolve(doc_id, ref_text) -> page_number |
NotFound` (spec §4.6) — first a normalized type+number match against the
Figure catalog, then a substring match against section titles, then a direct
text search over page contents, and the `NotFound` value (`none`) when no
page can be determined. -/
def resolveRef (doc : Document) (refText : List Char) : Option Nat :=
  let figHit : Option Nat :=
    match jsFigMatch refText with
    | some (kw, num) =>
      (doc.figures.find? (fun f =>
        capCarriesNum (kw.head? == some 't') num f.caption)).map Figure.page
    | none => none
  match figHit with
  | some p => some p
  | none =>
    match doc.sections.find? (fun sec =>
        containsSub sec.title refText || containsSub refText sec.title) with
    | some sec => some sec.startPage
    | none => firstPageWith refText doc.pages 1

/-! ## Concrete sample data used by the witnesses -/

/-- A concrete chunk on page 1. -/
def sampleChunkA : Chunk :=
  { docId := 1, page := 1, offset := 0, text := ['a'], modelGen := 0,
    embedding := [1] }

/-- A concrete chunk on page 2. -/
def sampleChunkB : Chunk :=
  { docId := 1, page := 2, offset := 0, text := ['b'], modelGen := 0,
    embedding := [1] }

/-- A concrete stored document with the given status and no content. -/
def sampleDoc (status : EmbeddingStatus) : Document :=
  { id := 5381, pageCount := 0, pages := [], sections := [],
    embeddingStatus := status, chunks := [], figures := [], notes := [['n']],
    chatHistory := [['c']] }

/-- A concrete environment whose provider embeds every text. -/
def envOk : EngineEnv :=
  { pagesOf := fun _ => [['p']], sectionsOf := fun _ => [],
    figuresOf := fun _ => [], chunkSeeds := fun _ => [(1, 0, ['p'])],
    provider := fun _ => some [1], modelGen := 0 }

/-- A concrete environment whose provider fails on every text. -/
def envFail : EngineEnv :=
  { pagesOf := fun _ => [['p']], sectionsOf := fun _ => [],
    figuresOf := fun _ => [], chunkSeeds := fun _ => [(1, 0, ['p'])],
    provider := fun _ => none, modelGen := 0 }

/-- The Figure whose caption is `Figure 10: Results`, on page 7. -/
def figTen : Figure :=
  { caption := ['F', 'i', 'g', 'u', 'r', 'e', ' ', '1', '0', ':', ' ',
      'R', 'e', 's', 'u', 'l', 't', 's'], page := 7 }

/-- A concrete chat message used by the witnesses: `see Fig. 12.` -/
def sampleContent : List Char :=
  ['s', 'e', 'e', ' ', 'F', 'i', 'g', '.', ' ', '1', '2', '.']

/-! ## Embed button and handleTriggerEmbedding (src/unnamed/part_002) -/

/-- The Embed-button gating of the history modal (src/unnamed/part_002 lines
819–843): the button is rendered only when the file's `embedding_status` is
neither `completed` nor `processing`. -/
def showEmbedButton (status : EmbeddingStatus) : Bool :=
  status ≠ EmbeddingStatus.completed && status ≠ EmbeddingStatus.processing

/-- The UI effect of `handleTriggerEmbedding` (src/unnamed/part_002 lines
171–186) after the `embedDocument` response arrives. -/
inductive EmbedUiEffect
  | refreshHistory
  | alertFailure
deriving DecidableEq, Repr

/-- `handleTriggerEmbedding`'s response handling: a response status of
`success` or `already_completed` refreshes the history list; anything else
raises the failure alert. -/
def handleTriggerEmbeddingEffect (resStatus : IngestOutcome) : EmbedUiEffect :=
  if resStatus = IngestOutcome.succeeded ∨ resStatus = IngestOutcome.alreadyCompleted then
    EmbedUiEffect.refreshHistory
  else EmbedUiEffect.alertFailure

end PdfReader

namespace PdfReader

/-! # Theorems -/

/-! ### Equation lemmas for the fuel-based `numTail` and `isDotGroups` -/

theorem numTailF_congr :
    ∀ (f1 f2 : Nat) (l : List Char), l.length < f1 → l.length < f2 →
      numTailF f1 l = numTailF f2 l := by
  intro f1
  induction f1 with
  | zero => intro f2 l h1 _; omega
  | succ f ih =>
    intro f2 l h1 h2
    cases f2 with
    | zero => omega
    | succ g =>
      cases l with
      | nil => rfl
      | cons c cs =>
        simp only [numTailF]
        by_cases hc : c = '.'
        · simp only [if_pos hc]
          by_cases hd : (cs.takeWhile Char.isDigit).length = 0
          · simp [hd]
          · simp only [if_neg hd]
            have hdl : (cs.drop (cs.takeWhile Char.isDigit).length).length ≤
                cs.length := by
              simp only [List.length_drop]; omega
            have hcf : cs.length < f := by
              simp only [List.length_cons] at h1; omega
            have hcg : cs.length < g := by
              simp only [List.length_cons] at h2; omega
            rw [ih g _ (by omega) (by omega)]
        · simp only [if_neg hc]

theorem numTail_nil : numTail [] = 0 := rfl

theorem numTail_cons (c : Char) (cs : List Char) :
    numTail (c :: cs) =
      (if c = '.' then
        (if (cs.takeWhile Char.isDigit).length = 0 then 0
         else 1 + (cs.takeWhile Char.isDigit).length +
           numTail (cs.drop (cs.takeWhile Char.isDigit).length))
      else 0) := by
  show numTailF (cs.length + 1 + 1) (c :: cs) = _
  simp only [numTailF]
  by_cases hc : c = '.'
  · simp only [if_pos hc]
    by_cases hd : (cs.takeWhile Char.isDigit).length = 0
    · simp [hd]
    · simp only [if_neg hd]
      have hdl : (cs.drop (cs.takeWhile Char.isDigit).length).length ≤
          cs.length := by
        simp only [List.length_drop]; omega
      rw [numTailF_congr (cs.length + 1)
        ((cs.drop (cs.takeWhile Char.isDigit).length).length + 1)
        _ (by omega) (by omega)]
      rfl
  · simp only [if_neg hc]

theorem isDotGroupsF_congr :
    ∀ (f1 f2 : Nat) (l : List Char), l.length < f1 → l.length < f2 →
      isDotGroupsF f1 l = isDotGroupsF f2 l := by
  intro f1
  induction f1 with
  | zero => intro f2 l h1 _; omega
  | succ f ih =>
    intro f2 l h1 h2
    cases f2 with
    | zero => omega
    | succ g =>
      cases l with
      | nil => rfl
      | cons c cs =>
        simp only [isDotGroupsF]
        by_cases hc : c = '.'
        · simp only [if_pos hc]
          by_cases hd : (cs.takeWhile Char.isDigit).isEmpty
          · simp [hd]
          · simp only [if_neg hd]
            have hdl : (cs.drop (cs.takeWhile Char.isDigit).length).length ≤
                cs.length := by
              simp only [List.length_drop]; omega
            have hcf : cs.length < f := by
              simp only [List.length_cons] at h1; omega
            have hcg : cs.length < g := by
              simp only [List.length_cons] at h2; omega
            rw [ih g _ (by omega) (by omega)]
        · simp only [if_neg hc]

theorem isDotGroups_nil : isDotGroups [] = true := rfl

theorem isDotGroups_cons (c : Char) (cs : List Char) :
    isDotGroups (c :: cs) =
      (if c = '.' then
        (if (cs.takeWhile Char.isDigit).isEmpty then false
         else isDotGroups (cs.drop (cs.takeWhile Char.isDigit).length))
      else false) := by
  show isDotGroupsF (cs.length + 1 + 1) (c :: cs) = _
  simp only [isDotGroupsF]
  by_cases hc : c = '.'
  · simp only [if_pos hc]
    by_cases hd : (cs.takeWhile Char.isDigit).isEmpty
    · simp [hd]
    · simp only [if_neg hd]
      have hdl : (cs.drop (cs.takeWhile Char.isDigit).length).length ≤
          cs.length := by
        simp only [List.length_drop]; omega
      rw [isDotGroupsF_congr (cs.length + 1)
        ((cs.drop (cs.takeWhile Char.isDigit).length).length + 1)
        _ (by omega) (by omega)]
      rfl
  · simp only [if_neg hc]


/-- C9: once a document is loaded (`numPages ≥ 1`), the PDF viewer's toolbar
navigation keeps the current page within `[1, numPages]`: the previous-page
action never yields a page below 1, the next-page action never yields a page
above the page count, and any sequence of toolbar clicks started inside the
range stays inside the range. -/
theorem pdfviewer_page_nav_bounded :
    (∀ p : Int, 1 ≤ prevPage p) ∧
    (∀ n p : Int, nextPage n p ≤ n) ∧
    (∀ (n p : Int) (clicks : List ToolbarClick), 1 ≤ n → 1 ≤ p → p ≤ n →
      1 ≤ runClicks n p clicks ∧ runClicks n p clicks ≤ n) :=
  by
  refine ⟨fun p => le_max_left 1 (p - 1), fun n p => min_le_left n (p + 1), ?_⟩
  intro n p clicks
  induction clicks generalizing p with
  | nil =>
    intro hn hp hpn
    exact ⟨hp, hpn⟩
  | cons c cs ih =>
    intro hn hp hpn
    rcases c with _ | _
    · refine ih (prevPage p) hn (le_max_left 1 (p - 1)) ?_
      have h1 : p - 1 ≤ n := by omega
      simpa [prevPage] using max_le hn h1
    · refine ih (nextPage n p) hn ?_ (min_le_left n (p + 1))
      have h1 : (1 : Int) ≤ p + 1 := by omega
      simpa [nextPage] using le_min hn h1

/-- Witness for C9 at a concrete document: 3 pages, starting on page 2,
clicking next, next, prev. -/
theorem pdfviewer_page_nav_bounded_witness :
    1 ≤ runClicks 3 2 [ToolbarClick.next, ToolbarClick.next, ToolbarClick.prev] ∧
      runClicks 3 2 [ToolbarClick.next, ToolbarClick.next, ToolbarClick.prev] ≤ 3 :=
  pdfviewer_page_nav_bounded.2.2 3 2
    [ToolbarClick.next, ToolbarClick.next, ToolbarClick.prev]
    (by decide) (by decide) (by decide)

/-- C10: `handleDeleteDocument(id)` changes the local reading state only when
`id` is the open document: when the deletion goes through (dialog confirmed,
API call succeeded) on the open document, `docId`, `pdfUrl`, `notes` and
`chatHistory` are cleared; when `id` differs from the open `docId`, all four
fields are left unchanged on every path. -/
theorem handleDeleteDocument_frame :
    ∀ (st : AppState) (id : List Char) (conf apiOk : Bool),
      (st.docId = some id →
        handleDeleteDocument true true st id =
          { st with docId := none, pdfUrl := none, notes := [], chatHistory := [] }) ∧
      (st.docId ≠ some id → handleDeleteDocument conf apiOk st id = st) :=
  by
  intro st id conf apiOk
  constructor
  · intro h
    simp [handleDeleteDocument, h]
  · intro h
    rcases conf with _ | _ <;> rcases apiOk with _ | _ <;>
      simp [handleDeleteDocument, h]

/-- Witness for C10 at a concrete state: deleting the open document clears
the reading state, deleting another id leaves it alone. -/
theorem handleDeleteDocument_frame_witness :
    (handleDeleteDocument true true
        { docId := some ['a'], pdfUrl := some ['u'], notes := [['n']],
          chatHistory := [['c']] } ['a'] =
      { docId := none, pdfUrl := none, notes := [], chatHistory := [] }) ∧
    (handleDeleteDocument true true
        { docId := some ['a'], pdfUrl := some ['u'], notes := [['n']],
          chatHistory := [['c']] } ['b'] =
      { docId := some ['a'], pdfUrl := some ['u'], notes := [['n']],
        chatHistory := [['c']] }) :=
  ⟨(handleDeleteDocument_frame
      { docId := some ['a'], pdfUrl := some ['u'], notes := [['n']],
        chatHistory := [['c']] } ['a'] true true).1 (by decide),
   (handleDeleteDocument_frame
      { docId := some ['a'], pdfUrl := some ['u'], notes := [['n']],
        chatHistory := [['c']] } ['b'] true true).2 (by decide)⟩

/-- C1: `identify` is deterministic on byte-identical uploads; when the
identified document is already stored, a re-upload short-circuits and returns
the stored Document with the store (hence its Chunks, Figures, notes and chat
history) untouched; when its status is already `completed`, a re-embed
request is a no-op signalled `alreadyCompleted` with the state unchanged, the
history UI hides the Embed button, and `handleTriggerEmbedding` treats the
`already_completed` response as success rather than an error. -/
theorem identify_reupload_short_circuit :
    ∀ (env : EngineEnv) (st : EngineState) (bytes bytes' : List Nat) (doc : Document),
      (bytes = bytes' → identify bytes = identify bytes') ∧
      (lookupDoc st (identify bytes) = some doc →
        upload env st bytes = (doc, st) ∧
        (doc.embeddingStatus = EmbeddingStatus.completed →
          ingest env st (identify bytes) = (IngestOutcome.alreadyCompleted, st))) ∧
      showEmbedButton EmbeddingStatus.completed = false ∧
      handleTriggerEmbeddingEffect IngestOutcome.alreadyCompleted =
        EmbedUiEffect.refreshHistory :=
  by
  intro env st bytes bytes' doc
  refine ⟨fun h => by rw [h], ?_, rfl, rfl⟩
  intro hl
  have hup : upload env st bytes = (doc, st) := by
    simp only [upload, hl]
  refine ⟨hup, fun hc => ?_⟩
  have hes : embedStart st (identify bytes) = (IngestOutcome.alreadyCompleted, st) := by
    simp only [embedStart, hl]
    rw [if_pos hc]
  unfold ingest
  rw [hes]

/-- Witness for C1: a stored completed document; re-upload returns it with
the state unchanged, and a re-embed request is signalled `alreadyCompleted`
without touching the state. -/
theorem identify_reupload_short_circuit_witness :
    upload envOk
        { docs := [(identify [], sampleDoc EmbeddingStatus.completed)], running := [] } [] =
      (sampleDoc EmbeddingStatus.completed,
        { docs := [(identify [], sampleDoc EmbeddingStatus.completed)], running := [] }) ∧
    ingest envOk
        { docs := [(identify [], sampleDoc EmbeddingStatus.completed)], running := [] }
        (identify []) =
      (IngestOutcome.alreadyCompleted,
        { docs := [(identify [], sampleDoc EmbeddingStatus.completed)], running := [] }) :=
  by
  have h :=
    (identify_reupload_short_circuit envOk
      { docs := [(identify [], sampleDoc EmbeddingStatus.completed)], running := [] }
      [] [] (sampleDoc EmbeddingStatus.completed)).2.1 (by decide)
  exact ⟨h.1, h.2 (by decide)⟩

/-- C7: when the figure phase of `handleReferenceClick` falls through and the
backend resolver returns the `NotFound` value (`none`, a value, not an
exception), the caller performs no page navigation: the current page is
returned unchanged. -/
theorem resolveReference_notFound_no_navigation :
    ∀ (figures : List Figure) (refText : List Char) (cur : Nat) (doc : Document),
      handleReferenceClickFig figures refText = RefAction.fallback →
      resolveRef doc refText = none →
      handleReferenceClickPage figures refText (resolveRef doc refText) cur = cur :=
  by
  intro figures refText cur doc h1 h2
  rw [h2]
  unfold handleReferenceClickPage
  rw [h1]

/-- Witness for C7: an unresolvable reference leaves the page at 5. -/
theorem resolveReference_notFound_no_navigation_witness :
    handleReferenceClickPage [] ['x']
        (resolveRef (sampleDoc EmbeddingStatus.statusNone) ['x']) 5 = 5 :=
  resolveReference_notFound_no_navigation [] ['x'] 5
    (sampleDoc EmbeddingStatus.statusNone) (by decide) (by decide)

/-- C4 counterexample: resolving `Fig. 1` against a catalog whose only entry
is captioned `Figure 10: Results` on page 7 navigates to page 7, although no
catalog Figure carries the number 1 under normalized type+number matching —
the claim as stated would require a fallback to section/text search here. -/
theorem figure_match_substring_counterexample :
    handleReferenceClickFig [figTen] ['F', 'i', 'g', '.', ' ', '1'] =
        RefAction.navigate 7 ∧
      capCarriesNum false ['1'] figTen.caption = false := by
  constructor
  · decide
  · decide

/-- C4 (amended): the figure phase of reference resolution matches by
substring containment on the lower-cased caption — given a figure/table regex
match with number `num` it navigates to the page of the first Figure whose
lower-cased caption contains `type ++ space ++ num` or `fig. ++ space ++ num`
(a containment check, so a reference number also matches captions whose
number merely extends it, e.g. `Fig. 1` matches `Figure 10`), and it falls
back to the backend section/text search exactly when no caption contains
either substring, the catalog is empty, or the reference carries no
figure/table marker. -/
theorem figure_match_substring :
    (∀ (figures : List Figure) (refText kw num : List Char) (f : Figure),
      jsFigMatch refText = some (kw, num) →
      figures.find? (fun g => figCandidate (refTypeName kw) num g) = some f →
      handleReferenceClickFig figures refText = RefAction.navigate f.page) ∧
    (∀ (figures : List Figure) (refText kw num : List Char),
      jsFigMatch refText = some (kw, num) →
      figures.find? (fun g => figCandidate (refTypeName kw) num g) = none →
      handleReferenceClickFig figures refText = RefAction.fallback) ∧
    (∀ (figures : List Figure) (refText : List Char),
      jsFigMatch refText = none →
      handleReferenceClickFig figures refText = RefAction.fallback) :=
  by
  refine ⟨?_, ?_, ?_⟩
  · intro figures refText kw num f h1 h2
    cases figures with
    | nil => simp at h2
    | cons a t =>
      simp only [handleReferenceClickFig, h1]
      rw [if_pos (by simp), h2]
  · intro figures refText kw num h1 h2
    simp only [handleReferenceClickFig, h1]
    by_cases hl : figures.length > 0
    · rw [if_pos hl, h2]
    · rw [if_neg hl]
  · intro figures refText h1
    simp only [handleReferenceClickFig, h1]

/-- Witness for C4 (amended): the substring match resolves `Fig. 1` to the
page of the `Figure 10: Results` entry. -/
theorem figure_match_substring_witness :
    handleReferenceClickFig [figTen] ['F', 'i', 'g', '.', ' ', '1'] =
      RefAction.navigate figTen.page :=
  figure_match_substring.1 [figTen] ['F', 'i', 'g', '.', ' ', '1']
    ['f', 'i', 'g', '.'] ['1'] figTen (by decide) (by decide)

/-- C2: `retrieve` returns at most `top_k` results, sorted by descending
similarity with ties broken by earlier page number then earlier chunk offset
(`resultRank`), every result carries the similarity score of its own chunk,
and zero matching chunks yield the empty sequence rather than an error. -/
theorem retrieve_topk_sorted_total :
    ∀ (queryGen : Nat) (sim : Chunk → ℚ) (chunks : List Chunk)
      (cands : Option (List Nat)) (topK : Nat),
      (retrieve queryGen sim chunks cands topK).length ≤ topK ∧
      List.Sorted resultRank (retrieve queryGen sim chunks cands topK) ∧
      (∀ r ∈ retrieve queryGen sim chunks cands topK, r.score = sim r.chunk) ∧
      retrieve queryGen sim [] cands topK = [] :=
  by
  intro qg sim chunks cands topK
  refine ⟨?_, ?_, ?_, ?_⟩
  · unfold retrieve
    simp [List.length_take]
  · unfold retrieve
    exact List.Pairwise.sublist (List.take_sublist _ _)
      (List.sorted_insertionSort resultRank _)
  · intro r hr
    unfold retrieve at hr
    have h1 := (List.take_sublist _ _).subset hr
    have h2 := (List.perm_insertionSort resultRank _).mem_iff.mp h1
    obtain ⟨c, _, rfl⟩ := List.mem_map.mp h2
    rfl
  · simp [retrieve]

/-- Witness for C2: a one-chunk pool returns that chunk scored by `sim`. -/
theorem retrieve_topk_sorted_total_witness :
    ({ chunk := sampleChunkA, score := 1 } : RetrievalResult).score =
      (fun _ => (1 : ℚ)) ({ chunk := sampleChunkA, score := 1 } : RetrievalResult).chunk :=
  (retrieve_topk_sorted_total 0 (fun _ => (1 : ℚ)) [sampleChunkA] none 2).2.2.1
    { chunk := sampleChunkA, score := 1 } (by decide)

/-- C5: embedding-space compatibility is an invariant of retrieval — every
result of `retrieve` comes from a chunk whose recorded embedding-model
generation equals the query's generation, so ranking across chunks of
different model generations cannot occur, whatever the current model was
switched to between indexing and querying. -/
theorem retrieve_single_embedding_space :
    ∀ (queryGen : Nat) (sim : Chunk → ℚ) (chunks : List Chunk)
      (cands : Option (List Nat)) (topK : Nat) (r : RetrievalResult),
      r ∈ retrieve queryGen sim chunks cands topK →
      r.chunk.modelGen = queryGen :=
  by
  intro qg sim chunks cands topK r hr
  unfold retrieve at hr
  have h1 := (List.take_sublist _ _).subset hr
  have h2 := (List.perm_insertionSort resultRank _).mem_iff.mp h1
  obtain ⟨c, hc, rfl⟩ := List.mem_map.mp h2
  have h3 := List.of_mem_filter hc
  simp only [Bool.and_eq_true, beq_iff_eq] at h3
  exact h3.1

theorem findDoc_isSome_of_eq {l : List (Nat × Document)} {id : Nat} {d : Document}
    (h : findDoc l id = some d) : (findDoc l id).isSome = true := by
  rw [h]
  rfl

theorem findDoc_update_self (l : List (Nat × Document)) (id : Nat) (d : Document)
    (h : (findDoc l id).isSome = true) :
    findDoc (l.map (fun p => if p.1 = id then (id, d) else p)) id = some d := by
  induction l with
  | nil => simp [findDoc] at h
  | cons p t ih =>
    by_cases hc : p.1 = id
    · simp [findDoc, hc]
    · simp only [findDoc, hc, if_false, List.map_cons, if_neg hc] at h ⊢
      exact ih h

theorem findDoc_update_ne (l : List (Nat × Document)) (id j : Nat) (d : Document)
    (h : j ≠ id) :
    findDoc (l.map (fun p => if p.1 = id then (id, d) else p)) j = findDoc l j := by
  induction l with
  | nil => simp [findDoc]
  | cons p t ih =>
    by_cases hc : p.1 = id
    · have hpj : ¬p.1 = j := by rw [hc]; exact fun hh => h hh.symm
      simp only [List.map_cons, if_pos hc, findDoc]
      rw [if_neg (show ¬id = j from fun hh => h hh.symm), if_neg hpj]
      exact ih
    · simp only [List.map_cons, if_neg hc, findDoc]
      by_cases hj : p.1 = j
      · rw [if_pos hj, if_pos hj]
      · rw [if_neg hj, if_neg hj]
        exact ih

theorem embedAll_length (p : List Char → Option (List ℚ)) :
    ∀ (ts : List (List Char)) (vs : List (List ℚ)),
      embedAll p ts = some vs → vs.length = ts.length := by
  intro ts
  induction ts with
  | nil =>
    intro vs h
    simp only [embedAll, Option.some.injEq] at h
    simp [← h]
  | cons t ts ih =>
    intro vs h
    simp only [embedAll] at h
    cases hp : p t with
    | none => rw [hp] at h; simp at h
    | some v =>
      rw [hp] at h
      cases he : embedAll p ts with
      | none => rw [he] at h; simp at h
      | some vs' =>
        rw [he] at h
        have hv : vs = v :: vs' := by simpa using h.symm
        rw [hv]
        simp [ih vs' he]

theorem mkChunks_length (docId gen : Nat) (seeds : List (Nat × Nat × List Char))
    (vecs : List (List ℚ)) :
    (mkChunks docId gen seeds vecs).length = min seeds.length vecs.length := by
  simp [mkChunks]

/-- C3: chunk indexing is atomic per document — when `ingest` runs on a
document and the provider embeds the whole batch, the complete chunk set is
committed with status `completed` and the number of persisted Chunks equals
the number of embeddings computed; when the provider fails mid-batch, no
partial set is committed: the document keeps exactly its previous chunks and
is marked `failed` (all-or-nothing commit). -/
theorem ingest_all_or_nothing :
    ∀ (env : EngineEnv) (st : EngineState) (id : Nat) (doc : Document),
      lookupDoc st id = some doc →
      doc.embeddingStatus ≠ EmbeddingStatus.completed →
      doc.embeddingStatus ≠ EmbeddingStatus.processing →
      id ∉ st.running →
      (∀ vecs,
        embedAll env.provider ((env.chunkSeeds doc.pages).map (fun s => s.2.2)) = some vecs →
        lookupDoc (ingest env st id).2 id =
          some { doc with
                 embeddingStatus := EmbeddingStatus.completed,
                 chunks := mkChunks id env.modelGen (env.chunkSeeds doc.pages) vecs } ∧
        (mkChunks id env.modelGen (env.chunkSeeds doc.pages) vecs).length = vecs.length) ∧
      (embedAll env.provider ((env.chunkSeeds doc.pages).map (fun s => s.2.2)) = none →
        lookupDoc (ingest env st id).2 id =
          some { doc with embeddingStatus := EmbeddingStatus.failed }) :=
  by
  intro env st id doc hl hc hp hr
  have hnotor : ¬(doc.embeddingStatus = EmbeddingStatus.processing ∨ id ∈ st.running) := by
    intro h
    rcases h with h | h
    · exact hp h
    · exact hr h
  have hstart : embedStart st id =
      (IngestOutcome.started,
        { docs := (saveDoc st id { doc with embeddingStatus := EmbeddingStatus.processing }).docs,
          running := id :: st.running }) := by
    simp only [embedStart, hl]
    rw [if_neg hc, if_neg hnotor]
  have hing : (ingest env st id).2 =
      embedFinish env
        { docs := (saveDoc st id { doc with embeddingStatus := EmbeddingStatus.processing }).docs,
          running := id :: st.running } id := by
    unfold ingest
    rw [hstart]
  have hsome : (findDoc st.docs id).isSome = true := by
    have : findDoc st.docs id = some doc := hl
    rw [this]
    rfl
  have hl1 : lookupDoc
      { docs := (saveDoc st id { doc with embeddingStatus := EmbeddingStatus.processing }).docs,
        running := id :: st.running } id =
      some { doc with embeddingStatus := EmbeddingStatus.processing } := by
    show findDoc (st.docs.map _) id = _
    exact findDoc_update_self st.docs id _ hsome
  constructor
  · intro vecs hv
    constructor
    · rw [hing]
      simp only [embedFinish, hl1, if_true, hv]
      exact findDoc_update_self _ id _ (findDoc_isSome_of_eq hl1)
    · rw [mkChunks_length]
      have hlen := embedAll_length env.provider _ _ hv
      simp only [List.length_map] at hlen
      omega
  · intro hv
    rw [hing]
    simp only [embedFinish, hl1, if_true, hv]
    exact findDoc_update_self _ id _ (findDoc_isSome_of_eq hl1)

/-- Witness for C3: with a one-chunk batch, the succeeding provider commits
the full set as `completed`; the failing provider commits nothing and marks
`failed`. -/
theorem ingest_all_or_nothing_witness :
    (lookupDoc (ingest envOk
        { docs := [(5381, sampleDoc EmbeddingStatus.statusNone)], running := [] } 5381).2 5381 =
      some { sampleDoc EmbeddingStatus.statusNone with
             embeddingStatus := EmbeddingStatus.completed,
             chunks := mkChunks 5381 envOk.modelGen
               (envOk.chunkSeeds (sampleDoc EmbeddingStatus.statusNone).pages) [[1]] }) ∧
    (lookupDoc (ingest envFail
        { docs := [(5381, sampleDoc EmbeddingStatus.statusNone)], running := [] } 5381).2 5381 =
      some { sampleDoc EmbeddingStatus.statusNone with
             embeddingStatus := EmbeddingStatus.failed }) :=
  ⟨((ingest_all_or_nothing envOk
      { docs := [(5381, sampleDoc EmbeddingStatus.statusNone)], running := [] } 5381
      (sampleDoc EmbeddingStatus.statusNone) (by decide) (by decide) (by decide)
      (by decide)).1 [[1]] (by decide)).1,
   (ingest_all_or_nothing envFail
      { docs := [(5381, sampleDoc EmbeddingStatus.statusNone)], running := [] } 5381
      (sampleDoc EmbeddingStatus.statusNone) (by decide) (by decide) (by decide)
      (by decide)).2 (by decide)⟩

theorem mem_update_docs {l : List (Nat × Document)} {id : Nat} {d : Document}
    {q : Nat × Document}
    (h : q ∈ l.map (fun p => if p.1 = id then (id, d) else p)) :
    q = (id, d) ∨ (q ∈ l ∧ q.1 ≠ id) := by
  obtain ⟨p, hp, he⟩ := List.mem_map.mp h
  by_cases hc : p.1 = id
  · left
    rw [← he, if_pos hc]
  · right
    rw [← he, if_neg hc]
    exact ⟨hp, hc⟩

theorem findDoc_mem {l : List (Nat × Document)} {id : Nat} {d : Document}
    (h : findDoc l id = some d) : (id, d) ∈ l := by
  induction l with
  | nil => simp [findDoc] at h
  | cons p t ih =>
    obtain ⟨a, b⟩ := p
    by_cases hc : a = id
    · simp only [findDoc, if_pos hc] at h
      have hb : b = d := by injection h
      rw [← hc, ← hb]
      exact List.mem_cons_self _ _
    · simp only [findDoc, if_neg hc] at h
      exact List.mem_cons_of_mem _ (ih h)

theorem inv_init (env : EngineEnv) : EngineInv env initState := by
  refine ⟨List.nodup_nil, ?_, ?_⟩
  · intro id hid
    simp [initState] at hid
  · intro q hq
    simp [initState] at hq

theorem inv_upload (env : EngineEnv) (st : EngineState) (bytes : List Nat)
    (h : EngineInv env st) : EngineInv env (upload env st bytes).2 := by
  obtain ⟨hnd, hrs, hdocs⟩ := h
  cases hl : lookupDoc st (identify bytes) with
  | some doc =>
    simp only [upload, hl]
    exact ⟨hnd, hrs, hdocs⟩
  | none =>
    simp only [upload, hl]
    refine ⟨hnd, ?_, ?_⟩
    · intro j hj
      by_cases hji : identify bytes = j
      · show (findDoc _ j).isSome = true
        simp [findDoc, hji]
      · show (findDoc _ j).isSome = true
        simp only [findDoc, if_neg hji]
        exact hrs j hj
    · intro q hq
      rcases List.mem_cons.mp hq with rfl | hq'
      · refine ⟨rfl, ⟨fun hcon => EmbeddingStatus.noConfusion hcon, fun hmem => ?_⟩,
          Or.inl rfl⟩
        have hsome := hrs _ hmem
        rw [show lookupDoc st (identify bytes) = none from hl] at hsome
        exact absurd hsome (by simp)
      · exact hdocs q hq'

theorem inv_start (env : EngineEnv) (st : EngineState) (id : Nat)
    (h : EngineInv env st) : EngineInv env (embedStart st id).2 := by
  obtain ⟨hnd, hrs, hdocs⟩ := h
  cases hl : lookupDoc st id with
  | none =>
    simp only [embedStart, hl]
    exact ⟨hnd, hrs, hdocs⟩
  | some doc =>
    by_cases hc : doc.embeddingStatus = EmbeddingStatus.completed
    · simp only [embedStart, hl]
      rw [if_pos hc]
      exact ⟨hnd, hrs, hdocs⟩
    · by_cases hp : doc.embeddingStatus = EmbeddingStatus.processing ∨ id ∈ st.running
      · simp only [embedStart, hl]
        rw [if_neg hc, if_pos hp]
        exact ⟨hnd, hrs, hdocs⟩
      · simp only [embedStart, hl]
        rw [if_neg hc, if_neg hp]
        push_neg at hp
        obtain ⟨hps, hmem⟩ := hp
        refine ⟨List.nodup_cons.mpr ⟨hmem, hnd⟩, ?_, ?_⟩
        · intro j hj
          rcases List.mem_cons.mp hj with rfl | hj'
          · show (findDoc (st.docs.map _) j).isSome = true
            rw [findDoc_update_self st.docs j _ (findDoc_isSome_of_eq hl)]
            rfl
          · have hji : j ≠ id := fun he => hmem (he ▸ hj')
            show (findDoc (st.docs.map _) j).isSome = true
            rw [findDoc_update_ne st.docs id j _ hji]
            exact hrs j hj'
        · intro q hq
          rcases mem_update_docs hq with rfl | ⟨hmemq, hne⟩
          · have hdoc := hdocs _ (findDoc_mem hl)
            refine ⟨hdoc.1, ⟨fun _ => List.mem_cons_self _ _, fun _ => rfl⟩, ?_⟩
            rcases hdoc.2.2 with hch | ⟨hco, _⟩
            · exact Or.inl hch
            · exact absurd hco hc
          · obtain ⟨hid, hiff, hch⟩ := hdocs q hmemq
            refine ⟨hid, ⟨fun hqs => List.mem_cons_of_mem _ (hiff.mp hqs), fun hqm => ?_⟩,
              hch⟩
            rcases List.mem_cons.mp hqm with he | hm
            · exact absurd he hne
            · exact hiff.mpr hm

theorem inv_finish (env : EngineEnv) (st : EngineState) (id : Nat)
    (h : EngineInv env st) : EngineInv env (embedFinish env st id) := by
  obtain ⟨hnd, hrs, hdocs⟩ := h
  cases hl : lookupDoc st id with
  | none =>
    simp only [embedFinish, hl]
    exact ⟨hnd, hrs, hdocs⟩
  | some doc =>
    by_cases hp : doc.embeddingStatus = EmbeddingStatus.processing
    · simp only [embedFinish, hl]
      rw [if_pos hp]
      have hdoc := hdocs _ (findDoc_mem hl)
      cases he : embedAll env.provider ((env.chunkSeeds doc.pages).map (fun s => s.2.2)) with
      | some vecs =>
        simp only [he]
        refine ⟨hnd.erase id, ?_, ?_⟩
        · intro j hj
          have hj' := List.mem_of_mem_erase hj
          by_cases hji : j = id
          · subst hji
            show (findDoc (st.docs.map _) j).isSome = true
            rw [findDoc_update_self st.docs j _ (findDoc_isSome_of_eq hl)]
            rfl
          · show (findDoc (st.docs.map _) j).isSome = true
            rw [findDoc_update_ne st.docs id j _ hji]
            exact hrs j hj'
        · intro q hq
          rcases mem_update_docs hq with rfl | ⟨hmemq, hne⟩
          · refine ⟨hdoc.1,
              ⟨fun hcon => EmbeddingStatus.noConfusion hcon, fun hmem => ?_⟩,
              Or.inr ⟨rfl, ?_⟩⟩
            · exact absurd ((hnd.mem_erase_iff.mp hmem).1) (by simp)
            · show mkChunks id env.modelGen _ _ = expectedChunks env id _
              simp only [expectedChunks, he]
          · obtain ⟨hid, hiff, hch⟩ := hdocs q hmemq
            exact ⟨hid, hiff.trans (List.mem_erase_of_ne hne).symm, hch⟩
      | none =>
        simp only [he]
        refine ⟨hnd.erase id, ?_, ?_⟩
        · intro j hj
          have hj' := List.mem_of_mem_erase hj
          by_cases hji : j = id
          · subst hji
            show (findDoc (st.docs.map _) j).isSome = true
            rw [findDoc_update_self st.docs j _ (findDoc_isSome_of_eq hl)]
            rfl
          · show (findDoc (st.docs.map _) j).isSome = true
            rw [findDoc_update_ne st.docs id j _ hji]
            exact hrs j hj'
        · intro q hq
          rcases mem_update_docs hq with rfl | ⟨hmemq, hne⟩
          · refine ⟨hdoc.1,
              ⟨fun hcon => EmbeddingStatus.noConfusion hcon, fun hmem => ?_⟩, ?_⟩
            · exact absurd ((hnd.mem_erase_iff.mp hmem).1) (by simp)
            · rcases hdoc.2.2 with hch | ⟨hco, _⟩
              · exact Or.inl hch
              · rw [hp] at hco
                exact EmbeddingStatus.noConfusion hco
          · obtain ⟨hid, hiff, hch⟩ := hdocs q hmemq
            exact ⟨hid, hiff.trans (List.mem_erase_of_ne hne).symm, hch⟩
    · simp only [embedFinish, hl]
      rw [if_neg hp]
      exact ⟨hnd, hrs, hdocs⟩

theorem inv_run (env : EngineEnv) :
    ∀ (events : List Event) (st : EngineState),
      EngineInv env st → EngineInv env (runEvents env st events) := by
  intro events
  induction events with
  | nil => intro st h; exact h
  | cons e es ih =>
    intro st h
    cases e with
    | uploadEv bytes => exact ih _ (inv_upload env st bytes h)
    | startEv id => exact ih _ (inv_start env st id h)
    | finishEv id => exact ih _ (inv_finish env st id h)

/-- C6: over every event interleaving from the empty engine, at most one
ingestion task runs per doc_id (the running list counts each id at most
once); a re-embed request for a stored document whose task is running is
rejected with the `alreadyProcessing` signal and the state unchanged; a
re-upload of bytes identifying a stored document starts nothing and returns
it with the state unchanged (coalescing); and every stored document's chunk
set is either empty or the complete committed set, so reads during ingestion
never observe a partial chunk set. -/
theorem single_ingestion_task_per_doc :
    ∀ (env : EngineEnv) (events : List Event),
      (∀ id, (runEvents env initState events).running.count id ≤ 1) ∧
      (∀ id d, lookupDoc (runEvents env initState events) id = some d →
        id ∈ (runEvents env initState events).running →
        embedStart (runEvents env initState events) id =
          (IngestOutcome.alreadyProcessing, runEvents env initState events)) ∧
      (∀ bytes d,
        lookupDoc (runEvents env initState events) (identify bytes) = some d →
        upload env (runEvents env initState events) bytes =
          (d, runEvents env initState events)) ∧
      (∀ id d, lookupDoc (runEvents env initState events) id = some d →
        d.chunks = [] ∨ d.chunks = expectedChunks env id d.pages) :=
  by
  intro env events
  obtain ⟨hnd, hrs, hdocs⟩ := inv_run env events initState (inv_init env)
  refine ⟨?_, ?_, ?_, ?_⟩
  · intro id
    exact List.nodup_iff_count_le_one.mp hnd id
  · intro id d hl hm
    have hdoc := hdocs _ (findDoc_mem hl)
    have hps : d.embeddingStatus = EmbeddingStatus.processing := hdoc.2.1.mpr hm
    simp only [embedStart, hl]
    rw [if_neg (by rw [hps]; exact fun hh => EmbeddingStatus.noConfusion hh),
      if_pos (Or.inl hps)]
  · intro bytes d hl
    simp only [upload, hl]
  · intro id d hl
    have hdoc := hdocs _ (findDoc_mem hl)
    rcases hdoc.2.2 with hch | ⟨_, hch⟩
    · exact Or.inl hch
    · exact Or.inr hch

/-- Witness for C6: after an upload and a task start, a second start request
for the same doc_id is rejected with `alreadyProcessing` and the state is
unchanged. -/
theorem single_ingestion_task_per_doc_witness :
    embedStart (runEvents envOk initState [Event.uploadEv [], Event.startEv 5381]) 5381 =
      (IngestOutcome.alreadyProcessing,
        runEvents envOk initState [Event.uploadEv [], Event.startEv 5381]) :=
  (single_ingestion_task_per_doc envOk [Event.uploadEv [], Event.startEv 5381]).2.1 5381
    { id := 5381, pageCount := 1, pages := [['p']], sections := [],
      embeddingStatus := EmbeddingStatus.processing, chunks := [], figures := [],
      notes := [], chatHistory := [] }
    (by decide) (by decide)

/-- Witness for C5: the returned result's chunk carries the query's model
generation. -/
theorem retrieve_single_embedding_space_witness :
    ({ chunk := sampleChunkA, score := 1 } : RetrievalResult).chunk.modelGen = 0 :=
  retrieve_single_embedding_space 0 (fun _ => (1 : ℚ)) [sampleChunkA] none 2
    { chunk := sampleChunkA, score := 1 } (by decide)

theorem toLower_of_isDigit {c : Char} (h : c.isDigit = true) : c.toLower = c := by
  simp [Char.isDigit] at h
  have hn : c.val.toNat ≤ 57 := UInt32.toNat_le_of_le (by decide) h.2
  unfold Char.toLower
  simp only [Char.toNat]
  rw [if_neg]
  omega

theorem jsSpace_cases {c : Char} (h : jsSpace c = true) :
    c = ' ' ∨ c = '\t' ∨ c = '\n' ∨ c = '\r' ∨ c = '\x0b' ∨ c = '\x0c' := by
  simp only [jsSpace, Bool.or_eq_true, decide_eq_true_eq] at h
  tauto

theorem toLower_of_jsSpace {c : Char} (h : jsSpace c = true) : c.toLower = c := by
  rcases jsSpace_cases h with h | h | h | h | h | h <;> subst h <;> decide

theorem isDigit_not_jsSpace {c : Char} (h : c.isDigit = true) : jsSpace c = false := by
  cases hjs : jsSpace c
  · rfl
  · exfalso
    rcases jsSpace_cases hjs with hc | hc | hc | hc | hc | hc <;> subst hc <;>
      exact absurd h (by decide)

theorem toLower_ne_kwHead {c : Char}
    (h : c.isDigit = true ∨ jsSpace c = true ∨ c = '.') :
    c.toLower ≠ 'f' ∧ c.toLower ≠ 't' ∧ c.toLower ≠ 's' ∧ c.toLower ≠ 'e' := by
  rcases h with h | h | h
  · rw [toLower_of_isDigit h]
    refine ⟨?_, ?_, ?_, ?_⟩ <;> intro hc <;> subst hc <;> exact absurd h (by decide)
  · rw [toLower_of_jsSpace h]
    rcases jsSpace_cases h with hc | hc | hc | hc | hc | hc <;> subst hc <;>
      exact ⟨by decide, by decide, by decide, by decide⟩
  · subst h
    exact ⟨by decide, by decide, by decide, by decide⟩

theorem isPrefixOf_cons_false {a b : Char} {k l : List Char} (h : ¬a = b) :
    (a :: k).isPrefixOf (b :: l) = false := by
  simp [List.isPrefixOf, h]

theorem kwHeads_false_of_headclass {c : Char} (w : List Char)
    (h : c.isDigit = true ∨ jsSpace c = true ∨ c = '.') :
    ∀ kw ∈ refKeywords, kwHeads kw (c :: w) = false := by
  intro kw hkw
  obtain ⟨h1, h2, h3, h4⟩ := toLower_ne_kwHead h
  fin_cases hkw <;>
    · show List.isPrefixOf _ ((c :: w).map Char.toLower) = false
      rw [List.map_cons]
      first
      | exact isPrefixOf_cons_false (fun he => h1 he.symm)
      | exact isPrefixOf_cons_false (fun he => h2 he.symm)
      | exact isPrefixOf_cons_false (fun he => h3 he.symm)
      | exact isPrefixOf_cons_false (fun he => h4 he.symm)

theorem dropWhile_eq_drop (p : Char → Bool) (l : List Char) :
    l.dropWhile p = l.drop ((l.takeWhile p).length) := by
  calc l.dropWhile p
      = (l.takeWhile p ++ l.dropWhile p).drop (l.takeWhile p).length :=
        (List.drop_left _ _).symm
    _ = l.drop ((l.takeWhile p).length) := by
        rw [List.takeWhile_append_dropWhile]

theorem take_app_exact (a b : List Char) (m : Nat) :
    (a ++ b).take (a.length + m) = a ++ b.take m := by
  induction a with
  | nil => simp
  | cons x xs ih => simp [List.take, ih, Nat.succ_add]

theorem drop_app_exact (a b : List Char) (m : Nat) :
    (a ++ b).drop (a.length + m) = b.drop m := by
  induction a with
  | nil => simp
  | cons x xs ih => simp [List.drop, ih, Nat.succ_add]

theorem numTail_le_aux :
    ∀ (n : Nat) (l : List Char), l.length ≤ n → numTail l ≤ l.length := by
  intro n
  induction n with
  | zero =>
    intro l hl
    have h0 : l = [] := List.eq_nil_of_length_eq_zero (Nat.le_zero.mp hl)
    subst h0
    simp [numTail_nil, numTail_cons]
  | succ n ih =>
    intro l hl
    match l with
    | [] => simp [numTail_nil, numTail_cons]
    | c :: cs =>
      simp only [numTail_cons]
      by_cases hc : c = '.'
      · rw [if_pos hc]
        by_cases hd : (cs.takeWhile Char.isDigit).length = 0
        · rw [if_pos hd]
          simp
        · rw [if_neg hd]
          have h1 : (cs.takeWhile Char.isDigit).length ≤ cs.length :=
            (List.takeWhile_sublist _).length_le
          have h2 := ih (cs.drop (cs.takeWhile Char.isDigit).length)
            (by simp only [List.length_drop]; simp only [List.length_cons] at hl; omega)
          simp only [List.length_drop] at h2
          simp only [List.length_cons]
          omega
      · rw [if_neg hc]
        simp

theorem numTail_le (l : List Char) : numTail l ≤ l.length :=
  numTail_le_aux l.length l le_rfl

theorem isDotGroups_numTail_take_aux :
    ∀ (n : Nat) (l : List Char), l.length ≤ n →
      isDotGroups (l.take (numTail l)) = true := by
  intro n
  induction n with
  | zero =>
    intro l hl
    have h0 : l = [] := List.eq_nil_of_length_eq_zero (Nat.le_zero.mp hl)
    subst h0
    simp [numTail_nil, numTail_cons, isDotGroups_nil, isDotGroups_cons]
  | succ n ih =>
    intro l hl
    match l with
    | [] => simp [numTail_nil, numTail_cons, isDotGroups_nil, isDotGroups_cons]
    | c :: cs =>
      simp only [numTail_cons]
      by_cases hc : c = '.'
      · rw [if_pos hc]
        by_cases hd : (cs.takeWhile Char.isDigit).length = 0
        · rw [if_pos hd]
          simp [isDotGroups_nil, isDotGroups_cons]
        · rw [if_neg hd]
          subst hc
          set D := cs.takeWhile Char.isDigit with hD
          set R := cs.dropWhile Char.isDigit with hR
          have hcs : D ++ R = cs := List.takeWhile_append_dropWhile _ _
          have hRdrop : cs.drop D.length = R := by
            rw [hR, dropWhile_eq_drop]
          have hm := numTail_le R
          have htake : cs.take (D.length + numTail (cs.drop D.length)) =
              D ++ R.take (numTail R) := by
            rw [hRdrop, ← hcs, take_app_exact]
          have hstep : ('.' :: cs).take (1 + D.length + numTail (cs.drop D.length)) =
              '.' :: (D ++ R.take (numTail R)) := by
            rw [← htake]
            have : 1 + D.length + numTail (cs.drop D.length) =
                (D.length + numTail (cs.drop D.length)) + 1 := by omega
            rw [this]
            rfl
          rw [hstep]
          -- evaluate isDotGroups on the dot-group we just built
          have hDall : ∀ x ∈ D, Char.isDigit x = true := fun x hx =>
            List.mem_takeWhile_imp hx
          have htw : (D ++ R.take (numTail R)).takeWhile Char.isDigit = D := by
            rw [List.takeWhile_append_of_pos hDall]
            cases hRm : numTail R with
            | zero => simp
            | succ m =>
              cases hRc : R with
              | nil =>
                exact absurd hRm (by simp [hRc, numTail_nil, numTail_cons])
              | cons rh rt =>
                have hrh : ¬Char.isDigit rh = true := by
                  have hh := List.head?_dropWhile_not Char.isDigit cs
                  rw [← hR, hRc] at hh
                  simpa using hh
                simp [List.take_succ_cons, List.takeWhile_cons_of_neg hrh]
          simp only [isDotGroups_cons, if_true]
          rw [htw]
          rw [if_neg (by simpa [List.isEmpty_iff_length_eq_zero] using hd)]
          have hdrop2 : (D ++ R.take (numTail R)).drop D.length = R.take (numTail R) :=
            List.drop_left _ _
          rw [hdrop2]
          -- R.take (numTail R).take (numTail (R.take (numTail R))) hmm: goal is
          -- isDotGroups (R.take (numTail R)) via ih? need R.take shape: use ih on R
          have hRlen : R.length ≤ n := by
            have h1 : R.length ≤ cs.length := by
              rw [← hcs]
              simp
            simp only [List.length_cons] at hl
            omega
          -- ih gives isDotGroups (R.take (numTail R)) directly
          exact ih R hRlen
      · rw [if_neg hc]
        simp [isDotGroups_nil, isDotGroups_cons]

theorem isDotGroups_numTail_take (l : List Char) :
    isDotGroups (l.take (numTail l)) = true :=
  isDotGroups_numTail_take_aux l.length l le_rfl

theorem isDotGroups_chars_aux :
    ∀ (n : Nat) (l : List Char), l.length ≤ n → isDotGroups l = true →
      ∀ c ∈ l, c = '.' ∨ c.isDigit = true := by
  intro n
  induction n with
  | zero =>
    intro l hl _ c hc
    have h0 : l = [] := List.eq_nil_of_length_eq_zero (Nat.le_zero.mp hl)
    subst h0
    simp at hc
  | succ n ih =>
    intro l hl hdg c hc
    match l with
    | [] => simp at hc
    | a :: cs =>
      simp only [isDotGroups_cons] at hdg
      by_cases ha : a = '.'
      · rw [if_pos ha] at hdg
        by_cases hd : (cs.takeWhile Char.isDigit).isEmpty = true
        · rw [if_pos hd] at hdg
          exact absurd hdg (by simp)
        · rw [if_neg hd] at hdg
          rcases List.mem_cons.mp hc with rfl | hcs
          · exact Or.inl ha
          · set D := cs.takeWhile Char.isDigit with hD
            have hcs' : D ++ cs.dropWhile Char.isDigit = cs :=
              List.takeWhile_append_dropWhile _ _
            have hRdrop : cs.drop D.length = cs.dropWhile Char.isDigit := by
              rw [dropWhile_eq_drop]
            rw [← hcs'] at hcs
            rcases List.mem_append.mp hcs with hmem | hmem
            · exact Or.inr (List.mem_takeWhile_imp hmem)
            · refine ih (cs.dropWhile Char.isDigit) ?_ (by rw [← hRdrop]; exact hdg) c hmem
              have h1 : (cs.dropWhile Char.isDigit).length ≤ cs.length :=
                (List.dropWhile_sublist _).length_le
              simp only [List.length_cons] at hl
              omega
      · rw [if_neg ha] at hdg
        exact absurd hdg (by simp)

theorem isDotGroups_chars {l : List Char} (h : isDotGroups l = true) :
    ∀ c ∈ l, c = '.' ∨ c.isDigit = true :=
  isDotGroups_chars_aux l.length l le_rfl h

theorem isDotGroups_head {l : List Char} (h : isDotGroups l = true) :
    l = [] ∨ ∃ t, l = '.' :: t := by
  match l with
  | [] => exact Or.inl rfl
  | a :: cs =>
    simp only [isDotGroups_cons] at h
    by_cases ha : a = '.'
    · exact Or.inr ⟨cs, by rw [ha]⟩
    · rw [if_neg ha] at h
      exact absurd h (by simp)

theorem isDotGroups_numTail_ge_aux :
    ∀ (n : Nat) (l : List Char), l.length ≤ n → isDotGroups l = true →
      ∀ v, l.length ≤ numTail (l ++ v) := by
  intro n
  induction n with
  | zero =>
    intro l hl _ v
    have h0 : l = [] := List.eq_nil_of_length_eq_zero (Nat.le_zero.mp hl)
    subst h0
    simp
  | succ n ih =>
    intro l hl hdg v
    match l with
    | [] => simp
    | a :: cs =>
      simp only [isDotGroups_cons] at hdg
      by_cases ha : a = '.'
      · rw [if_pos ha] at hdg
        by_cases hd : (cs.takeWhile Char.isDigit).isEmpty = true
        · rw [if_pos hd] at hdg
          exact absurd hdg (by simp)
        · rw [if_neg hd] at hdg
          subst ha
          set D := cs.takeWhile Char.isDigit with hD
          set R := cs.dropWhile Char.isDigit with hR
          have hcs : D ++ R = cs := List.takeWhile_append_dropWhile _ _
          have hRdrop : cs.drop D.length = R := by
            rw [hR, dropWhile_eq_drop]
          have hDpos : 0 < D.length := by
            cases hDc : D with
            | nil => rw [hDc] at hd; simp at hd
            | cons x xs => simp [hDc]
          have hDall : ∀ x ∈ D, Char.isDigit x = true := fun x hx =>
            List.mem_takeWhile_imp hx
          have hdgR : isDotGroups R = true := by
            rw [← hRdrop]
            exact hdg
          -- compute numTail ('.' :: (cs ++ v))
          simp only [List.cons_append, numTail_cons, if_true]
          have hsplit : cs ++ v = D ++ (R ++ v) := by
            rw [← hcs, List.append_assoc]
          rcases isDotGroups_head hdgR with hRnil | ⟨t, hRt⟩
          · -- R = []: digits may extend into v
            have htw : ((cs ++ v).takeWhile Char.isDigit) =
                D ++ v.takeWhile Char.isDigit := by
              rw [hsplit, hRnil]
              simpa using List.takeWhile_append_of_pos hDall
            rw [htw]
            have hne : ¬((D ++ v.takeWhile Char.isDigit).length = 0) := by
              simp only [List.length_append]
              omega
            rw [if_neg hne]
            have hlcs : cs.length = D.length := by
              rw [← hcs, hRnil]
              simp
            simp only [List.length_cons, List.length_append, hlcs]
            omega
          · -- R starts with a dot: digits stop exactly at D
            have hrh : ¬Char.isDigit '.' = true := by decide
            have htw : ((cs ++ v).takeWhile Char.isDigit) = D := by
              rw [hsplit, List.takeWhile_append_of_pos hDall, hRt]
              simp [List.takeWhile_cons_of_neg hrh]
            rw [htw]
            rw [if_neg (by omega)]
            have hdropv : (cs ++ v).drop D.length = R ++ v := by
              rw [hsplit, List.drop_left]
            rw [hdropv]
            have hRlen : R.length ≤ n := by
              have h1 : R.length ≤ cs.length := by
                rw [← hcs]
                simp
              simp only [List.length_cons] at hl
              omega
            have hrec := ih R hRlen hdgR v
            have hlcs : cs.length = D.length + R.length := by
              rw [← hcs]
              simp
            simp only [List.length_cons, hlcs]
            omega
      · rw [if_neg ha] at hdg
        exact absurd hdg (by simp)

theorem isDotGroups_numTail_ge {l : List Char} (h : isDotGroups l = true)
    (v : List Char) : l.length ≤ numTail (l ++ v) :=
  isDotGroups_numTail_ge_aux l.length l le_rfl h v

theorem matchAlt_none_of_not_heads {kw : List Char} {b : Bool} {s : List Char}
    (h : kwHeads kw s = false) : matchAltAt kw b s = none := by
  simp [matchAltAt, h]

theorem matchAlt_unfold {kw s : List Char} {n : Nat} {ds : List Char}
    (h : matchAltAt kw true s = some (n, ds)) :
    kwHeads kw s = true ∧
    ds = ((s.drop kw.length).dropWhile jsSpace).takeWhile Char.isDigit ∧
    ds.isEmpty = false ∧
    n = kw.length + ((s.drop kw.length).takeWhile jsSpace).length + ds.length +
        numTail (((s.drop kw.length).dropWhile jsSpace).drop ds.length) := by
  cases hk : kwHeads kw s
  · rw [matchAlt_none_of_not_heads hk] at h
    exact absurd h (by simp)
  · refine ⟨rfl, ?_⟩
    simp only [matchAltAt, hk, if_true] at h
    by_cases hde :
        (((s.drop kw.length).dropWhile jsSpace).takeWhile Char.isDigit).isEmpty = true
    · rw [if_pos hde] at h
      exact absurd h (by simp)
    · rw [if_neg hde] at h
      simp only [if_true, Option.some.injEq, Prod.mk.injEq] at h
      obtain ⟨hn, hds⟩ := h
      refine ⟨hds.symm, ?_, ?_⟩
      · rw [← hds]
        simpa using hde
      · rw [← hn, ← hds]

theorem kwHeads_length_le {kw s : List Char} (h : kwHeads kw s = true) :
    kw.length ≤ s.length := by
  have h1 := (List.isPrefixOf_iff_prefix.mp h).length_le
  simpa using h1

theorem matchAlt_le {kw s : List Char} {n : Nat} {ds : List Char}
    (h : matchAltAt kw true s = some (n, ds)) : n ≤ s.length := by
  obtain ⟨hk, hds, _, hn⟩ := matchAlt_unfold h
  have hklen : kw.length ≤ s.length := kwHeads_length_le hk
  have hB : ((s.drop kw.length).takeWhile jsSpace).length +
      ((s.drop kw.length).dropWhile jsSpace).length = (s.drop kw.length).length := by
    have h1 := congrArg List.length
      (List.takeWhile_append_dropWhile (p := jsSpace) (l := s.drop kw.length))
    rw [List.length_append] at h1
    exact h1
  have hC : ds.length ≤ ((s.drop kw.length).dropWhile jsSpace).length := by
    rw [hds]
    exact (List.takeWhile_sublist _).length_le
  have hD := numTail_le (((s.drop kw.length).dropWhile jsSpace).drop ds.length)
  simp only [List.length_drop] at hD hB ⊢
  omega

theorem matchAlt_pos {kw s : List Char} {n : Nat} {ds : List Char}
    (h : matchAltAt kw true s = some (n, ds)) : 0 < n ∧ 0 < ds.length := by
  obtain ⟨_, _, hne, hn⟩ := matchAlt_unfold h
  have h0 : ds.length ≠ 0 := by
    intro h0
    rw [List.isEmpty_iff_length_eq_zero.mpr h0] at hne
    exact absurd hne (by simp)
  omega

theorem refMatchAt_elim {b : Bool} {s : List Char} {kw : List Char} {n : Nat}
    {ds : List Char} :
    ∀ {kws : List (List Char)}, refMatchAt kws b s = some (kw, n, ds) →
      kw ∈ kws ∧ matchAltAt kw b s = some (n, ds) := by
  intro kws
  induction kws with
  | nil => intro h; simp [refMatchAt] at h
  | cons k rest ih =>
    intro h
    simp only [refMatchAt] at h
    cases hm : matchAltAt k b s with
    | some x =>
      rw [hm] at h
      obtain ⟨a, c⟩ := x
      simp only [Option.some.injEq, Prod.mk.injEq] at h
      obtain ⟨h1, h2, h3⟩ := h
      subst h1
      subst h2
      subst h3
      exact ⟨List.mem_cons_self _ _, hm⟩
    | none =>
      rw [hm] at h
      obtain ⟨h1, h2⟩ := ih h
      exact ⟨List.mem_cons_of_mem _ h1, h2⟩

theorem refMatchAt_of_alt {b : Bool} {s kw : List Char} {n : Nat} {ds : List Char}
    (hm : matchAltAt kw b s = some (n, ds)) :
    ∀ kws : List (List Char), kw ∈ kws →
      (∀ kw' ∈ kws, kwHeads kw' s = true → kw' = kw) →
      refMatchAt kws b s = some (kw, n, ds) := by
  intro kws
  induction kws with
  | nil => intro hmem _; simp at hmem
  | cons k rest ih =>
    intro hmem huniq
    by_cases hkeq : k = kw
    · subst hkeq
      simp only [refMatchAt, hm]
    · have hk : kwHeads k s = false := by
        cases hkk : kwHeads k s
        · rfl
        · exact absurd (huniq k (List.mem_cons_self _ _) hkk) hkeq
      simp only [refMatchAt, matchAlt_none_of_not_heads hk]
      have hmem' : kw ∈ rest := by
        rcases List.mem_cons.mp hmem with rfl | hmem'
        · exact absurd rfl hkeq
        · exact hmem'
      exact ih hmem' (fun kw' hkw' hh => huniq kw' (List.mem_cons_of_mem _ hkw') hh)

theorem refMatchAt_none {b : Bool} {s : List Char} :
    ∀ {kws : List (List Char)}, (∀ kw ∈ kws, kwHeads kw s = false) →
      refMatchAt kws b s = none := by
  intro kws
  induction kws with
  | nil => intro _; rfl
  | cons k rest ih =>
    intro h
    simp only [refMatchAt]
    rw [matchAlt_none_of_not_heads (h k (List.mem_cons_self _ _))]
    exact ih (fun kw hkw => h kw (List.mem_cons_of_mem _ hkw))

theorem refKeywords_no_pfx :
    ∀ k1 ∈ refKeywords, ∀ k2 ∈ refKeywords, k1 <+: k2 → k1 = k2 := by decide

theorem refKeywords_chars :
    ∀ k ∈ refKeywords, ∀ c ∈ k, c.isDigit = false ∧ jsSpace c = false := by decide

theorem refKeywords_no_suffix_pfx :
    ∀ k1 ∈ refKeywords, ∀ k2 ∈ refKeywords, ∀ j ∈ List.range k1.length,
      j = 0 ∨ ¬(k2 <+: k1.drop j) := by decide

theorem kwHeads_unique {s kw1 kw2 : List Char}
    (hm1 : kw1 ∈ refKeywords) (hm2 : kw2 ∈ refKeywords)
    (h1 : kwHeads kw1 s = true) (h2 : kwHeads kw2 s = true) : kw1 = kw2 := by
  have p1 := List.isPrefixOf_iff_prefix.mp h1
  have p2 := List.isPrefixOf_iff_prefix.mp h2
  rcases List.prefix_or_prefix_of_prefix p1 p2 with hp | hp
  · exact refKeywords_no_pfx kw1 hm1 kw2 hm2 hp
  · exact (refKeywords_no_pfx kw2 hm2 kw1 hm1 hp).symm

theorem matchAlt_sound {kw s : List Char} {n : Nat} {ds : List Char}
    (h : matchAltAt kw true s = some (n, ds)) :
    isRefLangAlt kw (s.take n) = true := by
  obtain ⟨hk, hds, hne, hn⟩ := matchAlt_unfold h
  have hklen : kw.length ≤ s.length := kwHeads_length_le hk
  set A := s.take kw.length with hA
  set rest := s.drop kw.length with hrest
  set B := rest.takeWhile jsSpace with hB
  set R2 := rest.dropWhile jsSpace with hR2
  set R3 := R2.drop ds.length with hR3
  set D := R3.take (numTail R3) with hD
  have hAlen : A.length = kw.length := by
    rw [hA, List.length_take]
    omega
  have halower : A.map Char.toLower = kw := by
    have hpref := List.isPrefixOf_iff_prefix.mp hk
    have heq := List.prefix_iff_eq_take.mp hpref
    rw [heq, hA, ← List.map_take]
  have hsplit1 : A ++ rest = s := List.take_append_drop _ _
  have hsplit2 : B ++ R2 = rest := List.takeWhile_append_dropWhile _ _
  have hdsPre : ds = R2.take ds.length := by
    conv_lhs => rw [hds]
    conv_rhs => rw [hds]
    exact List.prefix_iff_eq_take.mp (List.takeWhile_prefix _)
  have hsplit3 : ds ++ R3 = R2 := by
    calc ds ++ R3 = R2.take ds.length ++ R2.drop ds.length := by rw [← hdsPre, hR3]
      _ = R2 := List.take_append_drop _ _
  have hstake : s.take n = A ++ (B ++ (ds ++ D)) := by
    have hs : s = A ++ (B ++ (ds ++ R3)) := by
      rw [hsplit3, hsplit2, hsplit1]
    have hnn : n = A.length + (B.length + (ds.length + numTail R3)) := by
      rw [hAlen]
      omega
    conv_lhs => rw [hs, hnn]
    rw [take_app_exact, take_app_exact, take_app_exact]
  rw [hstake]
  have hBall : ∀ c ∈ B, jsSpace c = true := fun c hc => List.mem_takeWhile_imp hc
  have hdsall : ∀ c ∈ ds, Char.isDigit c = true := by
    intro c hc
    rw [hds] at hc
    exact List.mem_takeWhile_imp hc
  have hdsne : ds ≠ [] := by
    intro h0
    rw [h0] at hne
    exact absurd hne (by simp)
  obtain ⟨d0, dtl, hds0⟩ : ∃ d0 dtl, ds = d0 :: dtl := by
    cases ds with
    | nil => exact absurd rfl hdsne
    | cons a b => exact ⟨a, b, rfl⟩
  have hDdg : isDotGroups D = true := isDotGroups_numTail_take R3
  have hkH : kwHeads kw (A ++ (B ++ (ds ++ D))) = true := by
    show List.isPrefixOf _ _ = true
    rw [List.map_append, halower]
    exact List.isPrefixOf_iff_prefix.mpr (List.prefix_append kw _)
  have hdrop : (A ++ (B ++ (ds ++ D))).drop kw.length = B ++ (ds ++ D) := by
    rw [← hAlen]
    exact List.drop_left _ _
  have hd0dig : Char.isDigit d0 = true := hdsall d0 (by rw [hds0]; exact List.mem_cons_self _ _)
  have hdw : (B ++ (ds ++ D)).dropWhile jsSpace = ds ++ D := by
    rw [List.dropWhile_append_of_pos hBall, hds0, List.cons_append]
    exact List.dropWhile_cons_of_neg (by rw [isDigit_not_jsSpace hd0dig]; simp)
  have htw : (ds ++ D).takeWhile Char.isDigit = ds := by
    rw [List.takeWhile_append_of_pos hdsall]
    rcases isDotGroups_head hDdg with hD0 | ⟨t, hDt⟩
    · rw [hD0]
      simp
    · rw [hDt, List.takeWhile_cons_of_neg (by decide)]
      simp
  have hdropds : (ds ++ D).drop ds.length = D := List.drop_left _ _
  simp only [isRefLangAlt]
  rw [hkH, hdrop, hdw, htw, hdropds, hne, hDdg]
  rfl

theorem isRefLangAlt_elim {kw t : List Char} (h : isRefLangAlt kw t = true) :
    kwHeads kw t = true ∧
    (((t.drop kw.length).dropWhile jsSpace).takeWhile Char.isDigit).isEmpty = false ∧
    isDotGroups (((t.drop kw.length).dropWhile jsSpace).drop
      (((t.drop kw.length).dropWhile jsSpace).takeWhile Char.isDigit).length) = true := by
  simp only [isRefLangAlt, Bool.and_eq_true, Bool.not_eq_true'] at h
  exact ⟨h.1, h.2.1, h.2.2⟩

theorem matchAlt_complete {kw t : List Char} (h : isRefLangAlt kw t = true)
    (v : List Char) :
    ∃ n ds, matchAltAt kw true (t ++ v) = some (n, ds) ∧ t.length ≤ n := by
  obtain ⟨hk, hne, hdg⟩ := isRefLangAlt_elim h
  have hklen := kwHeads_length_le hk
  set Bt := (t.drop kw.length).takeWhile jsSpace with hBt
  set R2t := (t.drop kw.length).dropWhile jsSpace with hR2t
  set C := R2t.takeWhile Char.isDigit with hC
  set Dt := R2t.drop C.length with hDtdef
  have hsplit2 : Bt ++ R2t = t.drop kw.length := List.takeWhile_append_dropWhile _ _
  have hCpre : C = R2t.take C.length := by
    conv_lhs => rw [hC]
    conv_rhs => rw [hC]
    exact List.prefix_iff_eq_take.mp (List.takeWhile_prefix _)
  have hsplit3 : C ++ Dt = R2t := by
    calc C ++ Dt = R2t.take C.length ++ R2t.drop C.length := by rw [← hCpre, hDtdef]
      _ = R2t := List.take_append_drop _ _
  have hCall : ∀ c ∈ C, Char.isDigit c = true := fun c hc => List.mem_takeWhile_imp hc
  have hBall : ∀ c ∈ Bt, jsSpace c = true := fun c hc => List.mem_takeWhile_imp hc
  have hCne : C ≠ [] := by
    intro h0
    rw [h0] at hne
    exact absurd hne (by simp)
  obtain ⟨c0, ctl, hC0⟩ := List.exists_cons_of_ne_nil hCne
  have hc0 : Char.isDigit c0 = true := hCall _ (by rw [hC0]; exact List.mem_cons_self _ _)
  have hk2 : kwHeads kw (t ++ v) = true := by
    show List.isPrefixOf _ _ = true
    rw [List.map_append]
    exact List.isPrefixOf_iff_prefix.mpr
      ((List.isPrefixOf_iff_prefix.mp hk).trans (List.prefix_append _ _))
  have hdropu : (t ++ v).drop kw.length = Bt ++ (R2t ++ v) := by
    rw [List.drop_append_of_le_length hklen, ← hsplit2, List.append_assoc]
  have hR2v : R2t ++ v = c0 :: (ctl ++ (Dt ++ v)) := by
    rw [← hsplit3, hC0]
    simp
  have htwu : (Bt ++ (R2t ++ v)).takeWhile jsSpace = Bt := by
    rw [List.takeWhile_append_of_pos hBall, hR2v,
      List.takeWhile_cons_of_neg (by rw [isDigit_not_jsSpace hc0]; simp)]
    simp
  have hdwu : (Bt ++ (R2t ++ v)).dropWhile jsSpace = R2t ++ v := by
    rw [List.dropWhile_append_of_pos hBall, hR2v,
      List.dropWhile_cons_of_neg (by rw [isDigit_not_jsSpace hc0]; simp)]
  have hsplitu : R2t ++ v = C ++ (Dt ++ v) := by
    rw [← hsplit3, List.append_assoc]
  have hlt : t.length = kw.length + Bt.length + C.length + Dt.length := by
    have h1 : (t.drop kw.length).length = t.length - kw.length := List.length_drop _ _
    have h2 := congrArg List.length hsplit2
    have h3 := congrArg List.length hsplit3
    simp only [List.length_append] at h2 h3
    omega
  rcases isDotGroups_head hdg with hD0 | ⟨dt, hDt0⟩
  · -- the dotted tail is empty: digits may extend into v
    have htwd : (R2t ++ v).takeWhile Char.isDigit = C ++ v.takeWhile Char.isDigit := by
      rw [hsplitu, List.takeWhile_append_of_pos hCall, hD0]
      simp
    have hne2 : ¬((C ++ v.takeWhile Char.isDigit).isEmpty = true) := by
      rw [hC0]
      simp
    refine ⟨kw.length + Bt.length + (C ++ v.takeWhile Char.isDigit).length +
        numTail ((R2t ++ v).drop (C ++ v.takeWhile Char.isDigit).length),
      C ++ v.takeWhile Char.isDigit, ?_, ?_⟩
    · simp only [matchAltAt, hk2, if_true, hdropu, htwu, hdwu, htwd]
      rw [if_neg hne2]
    · have h4 : (C ++ v.takeWhile Char.isDigit).length = C.length +
          (v.takeWhile Char.isDigit).length := List.length_append _ _
      have h5 : Dt.length = 0 := by rw [hD0]; rfl
      omega
  · -- the dotted tail starts with a dot: digits stop exactly at C
    have htwd : (R2t ++ v).takeWhile Char.isDigit = C := by
      rw [hsplitu, hDt0, List.cons_append, List.takeWhile_append_of_pos hCall,
        List.takeWhile_cons_of_neg (by decide)]
      simp
    have hne2 : ¬(C.isEmpty = true) := by
      rw [hC0]
      simp
    have hdropC : (R2t ++ v).drop C.length = Dt ++ v := by
      rw [hsplitu]
      exact List.drop_left _ _
    have hnt : Dt.length ≤ numTail (Dt ++ v) := isDotGroups_numTail_ge hdg v
    refine ⟨kw.length + Bt.length + C.length + numTail (Dt ++ v), C, ?_, ?_⟩
    · simp only [matchAltAt, hk2, if_true, hdropu, htwu, hdwu, htwd]
      rw [if_neg hne2, hdropC]
    · omega

theorem isRefLang_elim {t : List Char} (h : isRefLang t = true) :
    ∃ kw ∈ refKeywords, isRefLangAlt kw t = true := by
  simpa [isRefLang, List.any_eq_true] using h

theorem isRefLang_complete {t : List Char} (h : isRefLang t = true) (v : List Char) :
    ∃ kw n ds, refMatchAt refKeywords true (t ++ v) = some (kw, n, ds) ∧
      t.length ≤ n := by
  obtain ⟨kw, hkw, halt⟩ := isRefLang_elim h
  obtain ⟨n, ds, hm, hlen⟩ := matchAlt_complete halt v
  obtain ⟨hk2, _, _, _⟩ := matchAlt_unfold hm
  refine ⟨kw, n, ds, refMatchAt_of_alt hm refKeywords hkw ?_, hlen⟩
  intro kw2 hkw2 hh
  exact kwHeads_unique hkw2 hkw hh hk2

theorem refMatchAt_lang {s kw : List Char} {n : Nat} {ds : List Char}
    (h : refMatchAt refKeywords true s = some (kw, n, ds)) :
    isRefLang (s.take n) = true := by
  obtain ⟨hmem, hm⟩ := refMatchAt_elim h
  have hs := matchAlt_sound hm
  simp only [isRefLang, List.any_eq_true]
  exact ⟨kw, hmem, hs⟩

theorem no_match_inside {s kw : List Char} {n : Nat} {ds : List Char}
    (h : refMatchAt refKeywords true s = some (kw, n, ds)) :
    ∀ j, 0 < j → j < n → refMatchAt refKeywords true (s.drop j) = none := by
  intro j hj0 hjn
  obtain ⟨hmem, hm⟩ := refMatchAt_elim h
  obtain ⟨hk, hds, hne, hn⟩ := matchAlt_unfold hm
  have hklen := kwHeads_length_le hk
  set A := s.take kw.length with hA
  set rest := s.drop kw.length with hrest
  set B := rest.takeWhile jsSpace with hB
  set R2 := rest.dropWhile jsSpace with hR2
  set R3 := R2.drop ds.length with hR3
  have hAlen : A.length = kw.length := by
    rw [hA, List.length_take]
    omega
  have halower : A.map Char.toLower = kw := by
    have hpref := List.isPrefixOf_iff_prefix.mp hk
    have heq := List.prefix_iff_eq_take.mp hpref
    rw [heq, hA, ← List.map_take]
  have hsplit2 : B ++ R2 = rest := List.takeWhile_append_dropWhile _ _
  have hdsPre : ds = R2.take ds.length := by
    conv_lhs => rw [hds]
    conv_rhs => rw [hds]
    exact List.prefix_iff_eq_take.mp (List.takeWhile_prefix _)
  have hsplit3 : ds ++ R3 = R2 := by
    calc ds ++ R3 = R2.take ds.length ++ R2.drop ds.length := by rw [← hdsPre, hR3]
      _ = R2 := List.take_append_drop _ _
  have hBall : ∀ c ∈ B, jsSpace c = true := fun c hc => List.mem_takeWhile_imp hc
  have hdsall : ∀ c ∈ ds, Char.isDigit c = true := by
    intro c hc
    rw [hds] at hc
    exact List.mem_takeWhile_imp hc
  have hdsne : ds ≠ [] := by
    intro h0
    rw [h0] at hne
    exact absurd hne (by simp)
  obtain ⟨d0, dtl, hds0⟩ := List.exists_cons_of_ne_nil hdsne
  have hd0 : Char.isDigit d0 = true := hdsall d0 (by rw [hds0]; exact List.mem_cons_self _ _)
  apply refMatchAt_none
  intro kw2 hkw2
  by_cases hjA : j < kw.length
  · cases hkh : kwHeads kw2 (s.drop j)
    · rfl
    · exfalso
      have hsA : s = A ++ rest := (List.take_append_drop _ _).symm
      have hmap : (s.drop j).map Char.toLower = kw.drop j ++ rest.map Char.toLower := by
        calc (s.drop j).map Char.toLower
            = ((A ++ rest).drop j).map Char.toLower := by rw [← hsA]
          _ = (A.drop j ++ rest).map Char.toLower := by
              rw [List.drop_append_of_le_length (by omega)]
          _ = (A.drop j).map Char.toLower ++ rest.map Char.toLower := by
              rw [List.map_append]
          _ = (A.map Char.toLower).drop j ++ rest.map Char.toLower := by
              rw [List.map_drop]
          _ = kw.drop j ++ rest.map Char.toLower := by rw [halower]
      have hpre : kw2 <+: kw.drop j ++ rest.map Char.toLower := by
        have h1 := List.isPrefixOf_iff_prefix.mp hkh
        rwa [hmap] at h1
      obtain ⟨h0, rtail, hrest0, hclass⟩ :
          ∃ h0 rtail, rest = h0 :: rtail ∧ (h0.isDigit = true ∨ jsSpace h0 = true) := by
        cases hBc : B with
        | cons b bt =>
          refine ⟨b, bt ++ R2, ?_, Or.inr ?_⟩
          · rw [← hsplit2, hBc]
            simp
          · exact hBall b (by rw [hBc]; exact List.mem_cons_self _ _)
        | nil =>
          refine ⟨d0, dtl ++ R3, ?_, Or.inl hd0⟩
          · rw [← hsplit2, hBc, ← hsplit3, hds0]
            simp
      rw [hrest0] at hpre
      simp only [List.map_cons] at hpre
      have hh0 : Char.toLower h0 = h0 := by
        rcases hclass with hcd | hcs
        · exact toLower_of_isDigit hcd
        · exact toLower_of_jsSpace hcs
      rw [hh0] at hpre
      have hdlen : (kw.drop j).length = kw.length - j := List.length_drop _ _
      rcases le_or_lt kw2.length (kw.length - j) with hlen2 | hlen2
      · have hpre2 : kw2 <+: kw.drop j := by
          have heq := List.prefix_iff_eq_take.mp hpre
          rw [List.take_append_of_le_length (by omega)] at heq
          rw [heq]
          exact List.take_prefix _ _
        have hnsp := refKeywords_no_suffix_pfx kw hmem kw2 hkw2 j
          (by rw [List.mem_range]; omega)
        rcases hnsp with h0' | h0'
        · omega
        · exact h0' hpre2
      · obtain ⟨u, hu⟩ := hpre
        have htk : kw2.take (kw.drop j).length = kw.drop j := by
          have h1 := congrArg (List.take (kw.drop j).length) hu
          rw [List.take_append_of_le_length (by omega), List.take_left] at h1
          exact h1
        have hw1 : kw2 = kw.drop j ++ kw2.drop (kw.drop j).length := by
          conv_lhs => rw [← List.take_append_drop (kw.drop j).length kw2]
          rw [htk]
        have hwpre : kw2.drop (kw.drop j).length ++ u = h0 :: rtail.map Char.toLower := by
          have h1 := congrArg (List.drop (kw.drop j).length) hu
          rw [List.drop_append_of_le_length (by omega), List.drop_left] at h1
          exact h1
        have hw3 : kw2.drop (kw.drop j).length ≠ [] := by
          intro h0'
          have hlz := congrArg List.length h0'
          simp only [List.length_drop, List.length_nil] at hlz
          omega
        obtain ⟨w0, wtl, hw0⟩ := List.exists_cons_of_ne_nil hw3
        have hw0h : w0 = h0 := by
          rw [hw0] at hwpre
          simp only [List.cons_append] at hwpre
          injection hwpre with h1 _
        have hmemw : h0 ∈ kw2 := by
          rw [hw1, hw0, hw0h]
          exact List.mem_append_right _ (List.mem_cons_self _ _)
        have hchars := refKeywords_chars kw2 hkw2 h0 hmemw
        rcases hclass with hcd | hcs
        · simp [hchars.1] at hcd
        · simp [hchars.2] at hcs
  · push_neg at hjA
    set D := R3.take (numTail R3) with hD
    have hDdg : isDotGroups D = true := isDotGroups_numTail_take R3
    have hR3split : D ++ R3.drop (numTail R3) = R3 := List.take_append_drop _ _
    have hrestsplit : rest = (B ++ (ds ++ D)) ++ R3.drop (numTail R3) := by
      conv_lhs => rw [← hsplit2, ← hsplit3, ← hR3split]
      simp [List.append_assoc]
    have hDlen : D.length = numTail R3 := by
      rw [hD, List.length_take]
      have := numTail_le R3
      omega
    have hjM : j - kw.length < (B ++ (ds ++ D)).length := by
      simp only [List.length_append]
      omega
    have h1 : rest.drop (j - kw.length) = s.drop j := by
      rw [hrest, List.drop_drop]
      congr 1
      omega
    have hdropj : s.drop j =
        ((B ++ (ds ++ D)).drop (j - kw.length)) ++ R3.drop (numTail R3) := by
      rw [← h1, hrestsplit, List.drop_append_of_le_length (le_of_lt hjM)]
    have hne2 : (B ++ (ds ++ D)).drop (j - kw.length) ≠ [] := by
      intro hnil
      have hlz := congrArg List.length hnil
      simp only [List.length_drop, List.length_nil] at hlz
      omega
    obtain ⟨m0, mtl, hm0⟩ := List.exists_cons_of_ne_nil hne2
    have hm0mem : m0 ∈ B ++ (ds ++ D) := by
      have hsub := List.drop_subset (j - kw.length) (B ++ (ds ++ D))
      exact hsub (by rw [hm0]; exact List.mem_cons_self _ _)
    have hm0class : m0.isDigit = true ∨ jsSpace m0 = true ∨ m0 = '.' := by
      rcases List.mem_append.mp hm0mem with hmB | hmCD
      · exact Or.inr (Or.inl (hBall _ hmB))
      · rcases List.mem_append.mp hmCD with hmds | hmD
        · exact Or.inl (hdsall _ hmds)
        · rcases isDotGroups_chars hDdg _ hmD with hdot | hdig
          · exact Or.inr (Or.inr hdot)
          · exact Or.inl hdig
    rw [hdropj, hm0, List.cons_append]
    exact kwHeads_false_of_headclass _ hm0class kw2 hkw2

theorem findRef_spec :
    ∀ {s p m r : List Char}, findRef s = some (p, m, r) →
      p ++ m ++ r = s ∧ 0 < m.length ∧
      (∃ kw ds, refMatchAt refKeywords true (m ++ r) = some (kw, m.length, ds)) ∧
      (∀ j < p.length, refMatchAt refKeywords true (s.drop j) = none) := by
  intro s
  induction s with
  | nil =>
    intro p m r h
    simp [findRef] at h
  | cons c cs ih =>
    intro p m r h
    simp only [findRef] at h
    cases hr : refMatchAt refKeywords true (c :: cs) with
    | some x =>
      rw [hr] at h
      obtain ⟨kw, nl, dsx⟩ := x
      simp only [Option.some.injEq, Prod.mk.injEq] at h
      obtain ⟨hp, hm, hrr⟩ := h
      obtain ⟨hmem, halt⟩ := refMatchAt_elim hr
      have hpos := (matchAlt_pos halt).1
      have hle := matchAlt_le halt
      have hml : m.length = nl := by
        rw [← hm]
        simp only [List.length_take]
        omega
      refine ⟨?_, ?_, ?_, ?_⟩
      · rw [← hp, ← hm, ← hrr]
        simp only [List.nil_append]
        exact List.take_append_drop _ _
      · omega
      · have hmr : m ++ r = c :: cs := by
          rw [← hm, ← hrr]
          exact List.take_append_drop _ _
        refine ⟨kw, dsx, ?_⟩
        rw [hmr, hml]
        exact hr
      · intro j hj
        rw [← hp] at hj
        simp at hj
    | none =>
      rw [hr] at h
      cases hf : findRef cs with
      | none =>
        rw [hf] at h
        exact absurd h (by simp)
      | some y =>
        rw [hf] at h
        obtain ⟨p2, m2, r2⟩ := y
        simp only [Option.some.injEq, Prod.mk.injEq] at h
        obtain ⟨hp, hm, hrr⟩ := h
        obtain ⟨ih1, ih2, ih3, ih4⟩ := ih hf
        refine ⟨?_, ?_, ?_, ?_⟩
        · rw [← hp, ← hm, ← hrr]
          simp only [List.cons_append]
          rw [ih1]
        · rw [← hm]
          exact ih2
        · rw [← hm, ← hrr]
          exact ih3
        · intro j hj
          rw [← hp] at hj
          cases j with
          | zero => simpa using hr
          | succ j2 =>
            have hj2 : j2 < p2.length := by
              simp only [List.length_cons] at hj
              omega
            simpa using ih4 j2 hj2

theorem findRef_none_all :
    ∀ {s : List Char}, findRef s = none →
      ∀ j, refMatchAt refKeywords true (s.drop j) = none := by
  intro s
  induction s with
  | nil =>
    intro _ j
    rw [List.drop_nil]
    decide
  | cons c cs ih =>
    intro h j
    simp only [findRef] at h
    cases hr : refMatchAt refKeywords true (c :: cs) with
    | some x =>
      rw [hr] at h
      obtain ⟨a, b, c2⟩ := x
      exact absurd h (by simp)
    | none =>
      rw [hr] at h
      cases hf : findRef cs with
      | some y =>
        rw [hf] at h
        obtain ⟨a, b, c2⟩ := y
        exact absurd h (by simp)
      | none =>
        cases j with
        | zero => simpa using hr
        | succ j2 => simpa using ih hf j2

theorem scanRefs_flatten :
    ∀ (fuel : Nat) (s : List Char), fragsText (scanRefs fuel s) = s := by
  intro fuel
  induction fuel with
  | zero =>
    intro s
    simp [scanRefs, fragsText]
  | succ fuel ih =>
    intro s
    cases hf : findRef s with
    | none => simp [scanRefs, hf, fragsText]
    | some x =>
      obtain ⟨p, m, r⟩ := x
      obtain ⟨h1, _, _, _⟩ := findRef_spec hf
      simp only [scanRefs, hf, fragsText, ih r]
      rw [List.append_assoc] at h1
      exact h1

theorem scanRefs_spans_lang :
    ∀ (fuel : Nat) (s x : List Char),
      Frag.span x ∈ scanRefs fuel s → isRefLang x = true := by
  intro fuel
  induction fuel with
  | zero =>
    intro s x hx
    simp [scanRefs] at hx
  | succ fuel ih =>
    intro s x hx
    cases hf : findRef s with
    | none =>
      simp [scanRefs, hf] at hx
    | some y =>
      obtain ⟨p, m, r⟩ := y
      simp only [scanRefs, hf, List.mem_cons] at hx
      rcases hx with h1 | h2 | h3
      · exact absurd h1 (by simp)
      · have hxm : x = m := by injection h2
        obtain ⟨_, _, ⟨kw, dsx, hmm⟩, _⟩ := findRef_spec hf
        have hl := refMatchAt_lang hmm
        rw [List.take_left] at hl
        rw [hxm]
        exact hl
      · exact ih r x h3

theorem scanRefs_complete :
    ∀ (fuel : Nat) (s : List Char), s.length < fuel →
      ∀ i n, MaximalMatchAt s i n →
        Frag.span ((s.drop i).take n) ∈ scanRefs fuel s := by
  intro fuel
  induction fuel with
  | zero =>
    intro s h
    omega
  | succ fuel ih =>
    intro s hlen i n hmax
    obtain ⟨⟨hin, hlang⟩, hmaxi⟩ := hmax
    have htlen : ((s.drop i).take n).length = n := by
      simp only [List.length_take, List.length_drop]
      omega
    have hsd : (s.drop i).take n ++ s.drop (i + n) = s.drop i := by
      have h1 : (s.drop i).drop n = s.drop (i + n) := by
        rw [List.drop_drop]
      rw [← h1]
      exact List.take_append_drop _ _
    obtain ⟨kw0, n0, ds0, hm0, hn0⟩ := isRefLang_complete hlang (s.drop (i + n))
    rw [hsd] at hm0
    rw [htlen] at hn0
    cases hf : findRef s with
    | none =>
      exfalso
      have hcon := findRef_none_all hf i
      rw [hcon] at hm0
      exact absurd hm0 (by simp)
    | some y =>
      obtain ⟨p, m, r⟩ := y
      obtain ⟨hparts, hmpos, ⟨kw1, ds1, hm1⟩, hbefore⟩ := findRef_spec hf
      rw [List.append_assoc] at hparts
      have hdropP : s.drop p.length = m ++ r := by
        rw [← hparts]
        exact List.drop_left _ _
      have hlens : s.length = p.length + (m.length + r.length) := by
        rw [← hparts]
        simp [List.length_append]
      rcases Nat.lt_trichotomy i p.length with hip | hip | hip
      · exfalso
        rw [hbefore i hip] at hm0
        exact absurd hm0 (by simp)
      · subst hip
        rw [hdropP] at hm0
        have h2 : m.length = n0 := by
          have h3 := hm1.symm.trans hm0
          simp only [Option.some.injEq, Prod.mk.injEq] at h3
          exact h3.2.1
        have hmsub : MatchSubAt s p.length m.length := by
          constructor
          · omega
          · rw [hdropP, List.take_left]
            have hl := refMatchAt_lang hm1
            rwa [List.take_left] at hl
        have hfin := hmaxi p.length m.length hmsub le_rfl (by omega)
        have hspan : (s.drop p.length).take n = m := by
          rw [hdropP, ← hfin.2, List.take_left]
        rw [hspan]
        simp [scanRefs, hf]
      · rcases Nat.lt_or_ge i (p.length + m.length) with him | him
        · exfalso
          have hji := no_match_inside hm1 (i - p.length) (by omega) (by omega)
          have hdd : (m ++ r).drop (i - p.length) = s.drop i := by
            rw [← hdropP, List.drop_drop]
            congr 1
            omega
          rw [hdd] at hji
          rw [hji] at hm0
          exact absurd hm0 (by simp)
        · have hdropPM : s.drop (p.length + m.length) = r := by
            rw [← hparts, drop_app_exact, List.drop_left]
          have hmax2 : MaximalMatchAt r (i - (p.length + m.length)) n := by
            constructor
            · constructor
              · omega
              · have hre : r.drop (i - (p.length + m.length)) = s.drop i := by
                  rw [← hdropPM, List.drop_drop]
                  congr 1
                  omega
                rw [hre]
                exact hlang
            · intro i2 n2 hm2 hle hge
              have hm2s : MatchSubAt s (p.length + m.length + i2) n2 := by
                constructor
                · have := hm2.1
                  omega
                · have hre2 : r.drop i2 = s.drop (p.length + m.length + i2) := by
                    rw [← hdropPM, List.drop_drop]
                  rw [← hre2]
                  exact hm2.2
              have hfin2 := hmaxi (p.length + m.length + i2) n2 hm2s (by omega) (by omega)
              omega
          have hrlen : r.length < fuel := by omega
          have hrec := ih r hrlen (i - (p.length + m.length)) n hmax2
          have hre3 : (r.drop (i - (p.length + m.length))).take n = (s.drop i).take n := by
            congr 1
            rw [← hdropPM, List.drop_drop]
            congr 1
            omega
          rw [← hre3]
          simp only [scanRefs, hf, List.mem_cons]
          exact Or.inr (Or.inr hrec)

/-- C8: `renderContentWithRefs` preserves message text exactly: concatenating
the plain-text fragments and the clickable-span texts in order yields the
original content; every emitted span matches the reference pattern; and every
maximal substring of the content matching the reference pattern
(Fig./Figure/Table/Section/Eq. then a dotted number) is emitted as a
clickable span. -/
theorem renderContentWithRefs_exact :
    ∀ content : List Char,
      fragsText (renderContentWithRefs content) = content ∧
      (∀ x, Frag.span x ∈ renderContentWithRefs content → isRefLang x = true) ∧
      (∀ i n, MaximalMatchAt content i n →
        Frag.span ((content.drop i).take n) ∈ renderContentWithRefs content) := by
  intro content
  by_cases hc : content.isEmpty = true
  · have hnil : content = [] := by
      cases content
      · rfl
      · simp at hc
    subst hnil
    refine ⟨rfl, ?_, ?_⟩
    · intro x hx
      simp [renderContentWithRefs] at hx
    · intro i n h
      have h2 := h.1.2
      rw [List.drop_nil, List.take_nil] at h2
      exact absurd h2 (by decide)
  · have hc2 : ¬(content.isEmpty = true) := hc
    unfold renderContentWithRefs
    rw [if_neg hc2]
    exact ⟨scanRefs_flatten _ _, fun x hx => scanRefs_spans_lang _ _ x hx,
      fun i n hm => scanRefs_complete _ _ (by omega) i n hm⟩

/-- Witness for C8: in `see Fig. 12.` the maximal match `Fig. 12` at index 4
is emitted as a clickable span. -/
theorem renderContentWithRefs_exact_witness :
    Frag.span ((sampleContent.drop 4).take 7) ∈ renderContentWithRefs sampleContent :=
  (renderContentWithRefs_exact sampleContent).2.2 4 7 (by decide)

end PdfReader
